import Mathlib

set_option maxHeartbeats 1000000

/-!
Verification development for the incremental unused-code analyzer.

The definitions below are a shallow embedding of the analyzer's core
modules (unused-symbol cache, dependency tracker, reference analyzer,
task composer, analysis queue and analysis executor).  JavaScript `Map`
and `Set` objects are modelled as insertion-ordered association lists
and duplicate-free lists, matching the iteration-order semantics of the
originals.  External collaborators (glob matching, path relativization,
the reference provider) are passed in as function parameters, mirroring
the way the source injects them.
-/

namespace DartUnusedCode

/-- Model of JavaScript `Map.get`: the value of the first (for a real `Map`,
unique) entry carrying the key. -/
def mapGet {α β : Type} [DecidableEq α] : List (α × β) → α → Option β
  | [], _ => none
  | p :: t, k => if p.1 = k then some p.2 else mapGet t k

/-- Model of JavaScript `Map.set` on an insertion-ordered association list:
replace the value in place when the key is present, append a fresh entry at
the end otherwise. -/
def mapSet {α β : Type} [DecidableEq α] : List (α × β) → α → β → List (α × β)
  | [], k, v => [(k, v)]
  | p :: t, k, v => if p.1 = k then (k, v) :: t else p :: mapSet t k v

/-- Model of JavaScript `Map.delete`. -/
def mapDelete {α β : Type} [DecidableEq α] (m : List (α × β)) (k : α) :
    List (α × β) :=
  m.filter (fun p => !(p.1 == k))

/-- Keys of a modelled map, in insertion order. -/
def mapKeys {α β : Type} (m : List (α × β)) : List α :=
  m.map Prod.fst

/-- Model of JavaScript `Set.add` on an insertion-ordered duplicate-free
list: append the element iff it is not already present. -/
def setAdd {α : Type} [DecidableEq α] (s : List α) (x : α) : List α :=
  if x ∈ s then s else s ++ [x]

/-- Numeric value of a decimal digit character (proof-side helper used to
show decimal string encodings are injective). -/
def charVal (c : Char) : Nat := c.toNat - 48

/-- Decode a most-significant-first digit string, starting from `acc`. -/
def decodeAux (acc : Nat) (l : List Char) : Nat :=
  l.foldl (fun a c => 10 * a + charVal c) acc

/-- Decode a most-significant-first digit string. -/
def decodeDigits (l : List Char) : Nat := decodeAux 0 l

/-- A source location as seen by the reference analyzer: the `fsPath` of the
reference's URI and the zero-based start line of its range. -/
structure CodeLocation where
  fsPath : String
  line : Nat
  deriving DecidableEq, Repr

/-- Embedding of `MethodInfo` from `shared/types.ts`; `startLine` is
`range.start.line`, the component of the declaration range the analyzer
actually uses. -/
structure MethodInfo where
  name : String
  filePath : String
  startLine : Nat
  isPrivate : Bool := false
  className : Option String := none
  deriving DecidableEq, Repr

/-- Embedding of `AnalysisScopeType`. -/
inductive AnalysisScopeType where
  | workspace
  | files
  | fileWithDependencies
  deriving DecidableEq, Repr

/-- Embedding of `AnalysisScope`; optional fields model the optional
TypeScript properties. -/
structure AnalysisScope where
  type : AnalysisScopeType
  files : Option (List String) := none
  includeDependencies : Option Bool := none
  deriving DecidableEq, Repr

/-- Embedding of `AnalysisOperationType`. -/
inductive AnalysisOperationType where
  | extractMethods
  | checkReferences
  | clearCache
  deriving DecidableEq, Repr

/-- Embedding of `AnalysisOperation`. -/
structure AnalysisOperation where
  type : AnalysisOperationType
  files : List String
  deriving DecidableEq, Repr

/-- Embedding of `AnalysisTask`. -/
structure AnalysisTask where
  id : String
  scope : AnalysisScope
  operations : List AnalysisOperation
  timestamp : Nat
  deriving DecidableEq, Repr

namespace CacheService

/-- The cache key `FILEPATH:LINE` from `CacheService.getKey`. -/
def getKey (m : MethodInfo) : String :=
  m.filePath ++ ":" ++ Nat.repr m.startLine

/-- The state of `CacheService.unusedMethodsCache`: a JavaScript `Map` from
key string to method record. -/
abbrev Cache := List (String × MethodInfo)

/-- Embedding of `CacheService.add`. -/
def add (c : Cache) (m : MethodInfo) : Cache := mapSet c (getKey m) m

/-- Embedding of `CacheService.remove`. -/
def remove (c : Cache) (m : MethodInfo) : Cache := mapDelete c (getKey m)

/-- Embedding of `CacheService.get`. -/
def get (c : Cache) (filePath : String) (line : Nat) : Option MethodInfo :=
  mapGet c (filePath ++ ":" ++ Nat.repr line)

/-- Embedding of `CacheService.has`. -/
def has (c : Cache) (m : MethodInfo) : Bool := (mapGet c (getKey m)).isSome

/-- Embedding of `CacheService.getForFile`: linear scan of the map's values
filtering by the stored method's `filePath`. -/
def getForFile (c : Cache) (filePath : String) : List MethodInfo :=
  (c.map Prod.snd).filter (fun m => m.filePath == filePath)

/-- Embedding of `CacheService.getForFiles`. -/
def getForFiles (c : Cache) (filePaths : List String) : List MethodInfo :=
  (c.map Prod.snd).filter (fun m => filePaths.contains m.filePath)

/-- Embedding of `CacheService.clearFile`: collect the keys of the entries
whose stored method lives in the file, then delete those keys. -/
def clearFile (c : Cache) (filePath : String) : Cache :=
  let keysToDelete := (c.filter (fun p => p.2.filePath == filePath)).map Prod.fst
  keysToDelete.foldl mapDelete c

/-- Embedding of `CacheService.updateFile`: clear the file's entries, then
re-add the given methods. -/
def updateFile (c : Cache) (filePath : String)
    (unusedMethods : List MethodInfo) : Cache :=
  unusedMethods.foldl add (clearFile c filePath)

/-- Embedding of `CacheService.clear`. -/
def clear (_ : Cache) : Cache := []

/-- Embedding of `CacheService.getAll`. -/
def getAll (c : Cache) : List MethodInfo := c.map Prod.snd

/-- Embedding of `CacheService.populate`: clear everything, then add. -/
def populate (c : Cache) (unusedMethods : List MethodInfo) : Cache :=
  unusedMethods.foldl add (clear c)

/-- Embedding of `CacheService.size`. -/
def size (c : Cache) : Nat := c.length

end CacheService

/-- The invariant the source maintains on the unused-method cache: keys are
pairwise distinct (a real `Map` cannot hold duplicates) and every entry's
key is the `FILEPATH:LINE` key of its stored method (every insertion goes
through `add`). -/
def CacheInv (c : CacheService.Cache) : Prop :=
  (mapKeys c).Nodup ∧ ∀ p ∈ c, p.1 = CacheService.getKey p.2

namespace DependencyTrackerService

/-- The state of `DependencyTrackerService.dependencies`: a JavaScript `Map`
from a file to the insertion-ordered set of files it references. -/
abbrev DepGraph := List (String × List String)

/-- Embedding of `DependencyTrackerService.setDependencies`. -/
def setDependencies (g : DepGraph) (filePath : String)
    (referencedFiles : List String) : DepGraph :=
  mapSet g filePath referencedFiles

/-- Embedding of `DependencyTrackerService.getDependencies`: the stored edge
set, or the empty set when the file has no entry. -/
def getDependencies (g : DepGraph) (filePath : String) : List String :=
  (mapGet g filePath).getD []

/-- Embedding of `DependencyTrackerService.findRemovedReferences`. -/
def findRemovedReferences (g : DepGraph) (filePath : String)
    (currentReferences : List String) : List String :=
  (getDependencies g filePath).filter
    (fun prevRef => !(currentReferences.contains prevRef))

/-- Embedding of `DependencyTrackerService.removeFile`.  The source grabs a
reference to the deleted file's own edge `Set` before the pruning loop and
returns that same object afterwards; since the loop deletes the removed file
from every edge set that contains it, the returned set is the former edge
set with any self-edge already pruned. -/
def removeFile (g : DepGraph) (deletedFilePath : String) :
    List String × DepGraph :=
  let filesReferencedByDeleted :=
    ((mapGet g deletedFilePath).getD []).filter
      (fun f => !(f == deletedFilePath))
  let pruned : DepGraph :=
    g.map (fun p => (p.1, p.2.filter (fun f => !(f == deletedFilePath))))
  (filesReferencedByDeleted, mapDelete pruned deletedFilePath)

/-- Embedding of `DependencyTrackerService.clear`. -/
def clear (_ : DepGraph) : DepGraph := []

end DependencyTrackerService

namespace ReferenceAnalyzer

/-- Embedding of `ReferenceAnalyzer.getMatchedPattern`.  The `minimatch`
glob matcher is an external collaborator and is passed as a function. -/
def getMatchedPattern (minimatch : String → String → Bool)
    (relativePath : String) (patterns : List String) : Option String :=
  patterns.find? (fun pattern => minimatch relativePath pattern)

/-- Embedding of `ReferenceAnalyzer.filterExcludedReferences`.  `relativeTo
workspacePath fsPath` stands for `path.relative` composed with the
separator normalization performed by the source. -/
def filterExcludedReferences (minimatch : String → String → Bool)
    (relativeTo : String → String → String) (references : List CodeLocation)
    (excludePatterns : List String) (workspacePath : String) :
    List CodeLocation :=
  references.filter (fun location =>
    (getMatchedPattern minimatch (relativeTo workspacePath location.fsPath)
      excludePatterns).isNone)

/-- Whether a reference points at the method's own declaration: same file
and same declaration start line (`ReferenceAnalyzer.isMethodUnused`'s
definition/usage split; the `vscode.Uri.file(...).fsPath` round-trip is the
identity on the abstract paths of the model). -/
def isSelfReference (method : MethodInfo) (ref : CodeLocation) : Bool :=
  ref.fsPath == method.filePath && ref.line == method.startLine

/-- Embedding of the success path of `ReferenceAnalyzer.isMethodUnused`,
taking the reference provider's answer as input: no references at all means
unused; otherwise drop excluded references, split the rest into definition
and usage references, and report unused iff no usage reference remains.
The error path (the `catch` returning `false`) is modelled at the call site
in `AnalysisExecutor.checkReferences`. -/
def isMethodUnused (minimatch : String → String → Bool)
    (relativeTo : String → String → String) (method : MethodInfo)
    (excludePatterns : List String) (workspacePath : String)
    (references : List CodeLocation) : Bool :=
  if references.length = 0 then true
  else
    let filteredReferences := filterExcludedReferences minimatch relativeTo
      references excludePatterns workspacePath
    let usageReferences := filteredReferences.filter
      (fun ref => !(isSelfReference method ref))
    usageReferences.length == 0

end ReferenceAnalyzer

namespace AnalysisComposer

/-- Embedding of `AnalysisComposer.composeWorkspaceAnalysis`; the fresh id
and the current timestamp are produced externally and passed in. -/
def composeWorkspaceAnalysis (id : String) (timestamp : Nat) : AnalysisTask :=
  { id := id
    scope := { type := .workspace }
    operations :=
      [ { type := .extractMethods, files := [] }
        , { type := .checkReferences, files := [] } ]
    timestamp := timestamp }

/-- Embedding of `AnalysisComposer.composeFileWithDependenciesAnalysis`. -/
def composeFileWithDependenciesAnalysis (id : String) (timestamp : Nat)
    (filePath : String) : AnalysisTask :=
  { id := id
    scope := { type := .fileWithDependencies, files := some [filePath],
               includeDependencies := some true }
    operations :=
      [ { type := .extractMethods, files := [] }
        , { type := .checkReferences, files := [] } ]
    timestamp := timestamp }

/-- Embedding of `AnalysisComposer.composeFileDeletionAnalysis`. -/
def composeFileDeletionAnalysis (id : String) (timestamp : Nat)
    (filePath : String) : AnalysisTask :=
  { id := id
    scope := { type := .fileWithDependencies, files := some [filePath],
               includeDependencies := some true }
    operations :=
      [ { type := .clearCache, files := [filePath] }
        , { type := .extractMethods, files := [] }
        , { type := .checkReferences, files := [] } ]
    timestamp := timestamp }

/-- Embedding of `AnalysisComposer.composeReferenceRecheckAnalysis`. -/
def composeReferenceRecheckAnalysis (id : String) (timestamp : Nat)
    (files : Option (List String)) : AnalysisTask :=
  { id := id
    scope := { type := if (files.getD []).isEmpty then .workspace else .files
               files := files }
    operations := [ { type := .checkReferences, files := files.getD [] } ]
    timestamp := timestamp }

/-- JavaScript `a || b` on two optional booleans. -/
def orOption (a b : Option Bool) : Option Bool :=
  if a = some true then some true else b

/-- Embedding of `AnalysisComposer.mergeScopes`. -/
def mergeScopes (scope1 scope2 : AnalysisScope) : AnalysisScope :=
  if scope1.type = .workspace ∨ scope2.type = .workspace then
    { type := .workspace }
  else
    let files1 := scope1.files.getD []
    let files2 := scope2.files.getD []
    let mergedFiles := (files1 ++ files2).foldl setAdd []
    let scopeType :=
      if scope1.type = .fileWithDependencies ∨
          scope2.type = .fileWithDependencies then
        AnalysisScopeType.fileWithDependencies
      else
        AnalysisScopeType.files
    { type := scopeType
      files := some mergedFiles
      includeDependencies :=
        orOption scope1.includeDependencies scope2.includeDependencies }

/-- One step of `AnalysisComposer.mergeOperations`: fold an operation into
the insertion-ordered `operationMap`, adding its files to the set stored
under its type. -/
def mergeOperationsStep (opMap : List (AnalysisOperationType × List String))
    (op : AnalysisOperation) : List (AnalysisOperationType × List String) :=
  mapSet opMap op.type (op.files.foldl setAdd ((mapGet opMap op.type).getD []))

/-- Embedding of `AnalysisComposer.mergeOperations`. -/
def mergeOperations (ops1 ops2 : List AnalysisOperation) :
    List AnalysisOperation :=
  ((ops1 ++ ops2).foldl mergeOperationsStep []).map
    (fun p => { type := p.1, files := p.2 })

end AnalysisComposer

namespace AnalysisQueue

/-- Embedding of `AnalysisQueue.tryMergeTasks`; `none` models a merge
refusal (`merged: false`). -/
def tryMergeTasks (task1 task2 : AnalysisTask) : Option AnalysisTask :=
  if task1.scope.type = .workspace then some task1
  else if task2.scope.type = .workspace then some task2
  else
    let files1 := task1.scope.files.getD []
    let files2 := task2.scope.files.getD []
    let hasOverlap := files1.any (fun f => files2.contains f)
    if !hasOverlap && !files1.isEmpty && !files2.isEmpty then none
    else
      some
        { id := task1.id
          scope := AnalysisComposer.mergeScopes task1.scope task2.scope
          operations :=
            AnalysisComposer.mergeOperations task1.operations task2.operations
          timestamp := min task1.timestamp task2.timestamp }

/-- Embedding of `AnalysisQueue.tryMergeWithQueue`: find the first queued
task the new task merges with, replace it in place, and report the merged
task's id. -/
def enqueueAux (newTask : AnalysisTask) :
    List AnalysisTask → Option (List AnalysisTask × String)
  | [] => none
  | existing :: rest =>
    match tryMergeTasks existing newTask with
    | some merged => some (merged :: rest, merged.id)
    | none =>
      match enqueueAux newTask rest with
      | some (q, i) => some (existing :: q, i)
      | none => none

/-- Embedding of `AnalysisQueue.enqueue`: merge into the queue when
possible, otherwise append; returns the new queue and the reported id. -/
def enqueue (queue : List AnalysisTask) (task : AnalysisTask) :
    List AnalysisTask × String :=
  match enqueueAux task queue with
  | some r => r
  | none => (queue ++ [task], task.id)

end AnalysisQueue

namespace AnalysisExecutor

open CacheService DependencyTrackerService

/-- Embedding of `AnalysisExecutor.getFilesWithDependencies`: each listed
file followed by its direct dependency-tracker edges, collected into an
insertion-ordered set. -/
def getFilesWithDependencies (g : DepGraph) (files : List String) :
    List String :=
  files.foldl (fun result file =>
    (getDependencies g file).foldl setAdd (setAdd result file)) []

/-- Embedding of `AnalysisExecutor.resolveScope`; workspace-wide file
discovery is an external collaborator, so the discovered file list is a
parameter. -/
def resolveScope (g : DepGraph) (workspaceFiles : List String)
    (task : AnalysisTask) : List String :=
  match task.scope.type with
  | .workspace => workspaceFiles
  | .files => task.scope.files.getD []
  | .fileWithDependencies =>
    match task.scope.files with
    | none => []
    | some [] => []
    | some fs =>
      if task.scope.includeDependencies = some true then
        getFilesWithDependencies g fs
      else fs

/-- The cache together with the diagnostics sink (a map from file to its
reported unused methods), the state `checkReferences` updates. -/
structure CheckState where
  cache : CacheService.Cache
  diags : List (String × List MethodInfo)
  deriving DecidableEq, Repr

/-- Which methods `checkReferences` examines: freshly extracted methods if
any, else cached methods of the given files if any were given, else every
cached method. -/
def methodsToCheck (cache : Cache) (files : List String)
    (extractedMethods : List MethodInfo) : List MethodInfo :=
  if !extractedMethods.isEmpty then extractedMethods
  else if !files.isEmpty then getForFiles cache files
  else getAll cache

/-- The per-method verdict in `checkReferences`: the reference analyzer's
answer on success, and `false` (treated as used) when the lookup threw or
hit the per-method timeout. -/
def methodVerdict (lookupUnused : MethodInfo → Except Unit Bool)
    (m : MethodInfo) : Bool :=
  match lookupUnused m with
  | .ok isUnused => isUnused
  | .error _ => false

/-- Whether the per-method lookup failed (threw or timed out); such
failures are logged at warning level by the source. -/
def lookupFailed (lookupUnused : MethodInfo → Except Unit Bool)
    (m : MethodInfo) : Bool :=
  match lookupUnused m with
  | .ok _ => false
  | .error _ => true

/-- One step of building the `fileGroups` map of `checkReferences`: push a
method onto the group stored under its file. -/
def groupStep (groups : List (String × List MethodInfo)) (m : MethodInfo) :
    List (String × List MethodInfo) :=
  mapSet groups m.filePath (((mapGet groups m.filePath).getD []) ++ [m])

/-- The `fileGroups` map of `checkReferences`: unused methods grouped by
file, in insertion order. -/
def groupByFile (methods : List MethodInfo) :
    List (String × List MethodInfo) :=
  methods.foldl groupStep []

/-- The per-file cache/diagnostics update of `checkReferences`: atomically
replace the file's cache entries and reported diagnostics. -/
def updStep (s : CheckState) (p : String × List MethodInfo) : CheckState :=
  CheckState.mk (CacheService.updateFile s.cache p.1 p.2)
    (mapSet s.diags p.1 p.2)

/-- The per-file stale-state cleanup of `checkReferences`: clear cache and
diagnostics for a checked file that produced no unused methods. -/
def clearStep (fileGroups : List (String × List MethodInfo))
    (s : CheckState) (f : String) : CheckState :=
  if (mapGet fileGroups f).isSome then s
  else CheckState.mk (CacheService.clearFile s.cache f) (mapDelete s.diags f)

/-- Embedding of `AnalysisExecutor.checkReferences`.  The reference lookup
(`referenceAnalyzer.isMethodUnused` raced against the 10s timeout) is the
external parameter `lookupUnused`; `.error` covers both a thrown error and
the timeout.  Returns the updated cache/diagnostics state and the list of
methods whose lookup failed (those the source logs a warning for). -/
def checkReferences (lookupUnused : MethodInfo → Except Unit Bool)
    (files : List String) (extractedMethods : List MethodInfo)
    (st : CheckState) : CheckState × List MethodInfo :=
  let methods := methodsToCheck st.cache files extractedMethods
  if methods.isEmpty then (st, [])
  else
    let filesToCheck := (methods.map (fun m => m.filePath)).foldl setAdd []
    let filteredUnused := methods.filter (methodVerdict lookupUnused)
    let failedMethods := methods.filter (lookupFailed lookupUnused)
    let fileGroups := groupByFile filteredUnused
    let afterUpdates := fileGroups.foldl updStep st
    let final := filesToCheck.foldl (clearStep fileGroups) afterUpdates
    (final, failedMethods)

end AnalysisExecutor

section MapLemmas

variable {α β : Type} [DecidableEq α]

theorem mapGet_set_self (m : List (α × β)) (k : α) (v : β) :
    mapGet (mapSet m k v) k = some v := by
  induction m with
  | nil => simp [mapSet, mapGet]
  | cons p t ih =>
    by_cases hp : p.1 = k
    · simp [mapSet, mapGet, hp]
    · simp [mapSet, mapGet, hp, ih]

theorem mapGet_set_ne (m : List (α × β)) (k k' : α) (v : β) (h : k' ≠ k) :
    mapGet (mapSet m k v) k' = mapGet m k' := by
  induction m with
  | nil => simp [mapSet, mapGet, Ne.symm h]
  | cons p t ih =>
    by_cases hp : p.1 = k
    · simp [mapSet, mapGet, hp, Ne.symm h]
    · by_cases hp' : p.1 = k'
      · rw [mapSet, if_neg hp, mapGet, if_pos hp', mapGet, if_pos hp']
      · rw [mapSet, if_neg hp, mapGet, if_neg hp', mapGet, if_neg hp', ih]

theorem mapKeys_set (m : List (α × β)) (k : α) (v : β) :
    mapKeys (mapSet m k v) =
      if k ∈ mapKeys m then mapKeys m else mapKeys m ++ [k] := by
  induction m with
  | nil => simp [mapSet, mapKeys]
  | cons p t ih =>
    by_cases hp : p.1 = k
    · simp [mapSet, mapKeys, hp]
    · by_cases hk : k ∈ mapKeys t
      · have hc : k ∈ mapKeys (p :: t) := by
          simp only [mapKeys, List.map_cons, List.mem_cons]
          exact Or.inr (by simpa [mapKeys] using hk)
        rw [mapSet, if_neg hp, if_pos hc]
        show p.1 :: mapKeys (mapSet t k v) = mapKeys (p :: t)
        rw [ih, if_pos hk]
        rfl
      · have hc : k ∉ mapKeys (p :: t) := by
          simp only [mapKeys, List.map_cons, List.mem_cons]
          push_neg
          exact ⟨fun he => hp he.symm, by simpa [mapKeys] using hk⟩
        rw [mapSet, if_neg hp, if_neg hc]
        show p.1 :: mapKeys (mapSet t k v) = mapKeys (p :: t) ++ [k]
        rw [ih, if_neg hk]
        rfl

theorem mapSet_of_not_mem (m : List (α × β)) (k : α) (v : β)
    (h : k ∉ mapKeys m) : mapSet m k v = m ++ [(k, v)] := by
  induction m with
  | nil => simp [mapSet]
  | cons p t ih =>
    simp only [mapKeys, List.map_cons, List.mem_cons] at h
    push_neg at h
    simp [mapSet, Ne.symm h.1, ih (by simp [mapKeys, h.2])]

theorem length_mapSet_of_mem (m : List (α × β)) (k : α) (v : β)
    (h : k ∈ mapKeys m) : (mapSet m k v).length = m.length := by
  induction m with
  | nil => simp [mapKeys] at h
  | cons p t ih =>
    by_cases hp : p.1 = k
    · simp [mapSet, hp]
    · simp only [mapKeys, List.map_cons, List.mem_cons] at h
      rcases h with h | h
      · exact absurd h.symm hp
      · simp [mapSet, hp, ih (by simpa [mapKeys] using h)]

theorem mem_mapSet (m : List (α × β)) (k : α) (v : β) (p : α × β)
    (h : p ∈ mapSet m k v) : p = (k, v) ∨ p ∈ m := by
  induction m with
  | nil => simpa [mapSet] using h
  | cons q t ih =>
    by_cases hq : q.1 = k
    · simp only [mapSet, if_pos hq, List.mem_cons] at h
      rcases h with h | h
      · exact Or.inl h
      · exact Or.inr (List.mem_cons_of_mem _ h)
    · simp only [mapSet, if_neg hq, List.mem_cons] at h
      rcases h with h | h
      · exact Or.inr (h ▸ List.mem_cons_self _ _)
      · rcases ih h with h' | h'
        · exact Or.inl h'
        · exact Or.inr (List.mem_cons_of_mem _ h')

theorem mapGet_eq_none_iff (m : List (α × β)) (k : α) :
    mapGet m k = none ↔ k ∉ mapKeys m := by
  induction m with
  | nil => simp [mapGet, mapKeys]
  | cons p t ih =>
    by_cases hp : p.1 = k
    · simp [mapGet, mapKeys, hp]
    · simp [mapGet, mapKeys, hp, ih, Ne.symm hp]

theorem mapGet_eq_some_mem (m : List (α × β)) (k : α) (v : β)
    (h : mapGet m k = some v) : (k, v) ∈ m := by
  induction m with
  | nil => simp [mapGet] at h
  | cons p t ih =>
    by_cases hp : p.1 = k
    · simp only [mapGet, if_pos hp] at h
      have hpv : p = (k, v) := Prod.ext hp (Option.some.inj h)
      exact hpv ▸ List.mem_cons_self _ _
    · simp only [mapGet, if_neg hp] at h
      exact List.mem_cons_of_mem _ (ih h)

theorem mapGet_of_mem_of_nodupKeys (m : List (α × β)) (k : α) (v : β)
    (hnd : (mapKeys m).Nodup) (h : (k, v) ∈ m) : mapGet m k = some v := by
  induction m with
  | nil => simp at h
  | cons p t ih =>
    simp only [mapKeys, List.map_cons, List.nodup_cons] at hnd
    rcases List.mem_cons.mp h with h | h
    · simp [mapGet, ← h]
    · have hne : p.1 ≠ k := by
        intro he
        exact hnd.1 (he ▸ (List.mem_map.mpr ⟨(k, v), h, rfl⟩))
      simp [mapGet, hne, ih hnd.2 h]

theorem mapGet_delete_self (m : List (α × β)) (k : α) :
    mapGet (mapDelete m k) k = none := by
  rw [mapGet_eq_none_iff]
  intro hk
  rcases List.mem_map.mp hk with ⟨p, hp, he⟩
  rcases List.mem_filter.mp hp with ⟨_, hcond⟩
  simp [he] at hcond

theorem mapGet_delete_ne (m : List (α × β)) (k k' : α) (h : k' ≠ k) :
    mapGet (mapDelete m k) k' = mapGet m k' := by
  induction m with
  | nil => rfl
  | cons p t ih =>
    rw [mapDelete] at ih
    by_cases hp : p.1 = k
    · have hb : (!(p.1 == k)) = false := by simp [hp]
      rw [mapDelete, List.filter_cons, hb]
      simp only [if_neg Bool.false_ne_true]
      rw [ih, mapGet, if_neg (by rw [hp]; exact Ne.symm h)]
    · have hb : (!(p.1 == k)) = true := by simp [hp]
      rw [mapDelete, List.filter_cons, hb]
      simp only [if_pos rfl]
      by_cases hp' : p.1 = k'
      · simp [mapGet, hp']
      · simp [mapGet, hp', ih]

theorem mem_setAdd (s : List α) (x y : α) :
    y ∈ setAdd s x ↔ y ∈ s ∨ y = x := by
  unfold setAdd
  by_cases h : x ∈ s
  · simp only [if_pos h]
    constructor
    · exact Or.inl
    · rintro (hy | rfl)
      · exact hy
      · exact h
  · simp [if_neg h]

theorem nodup_setAdd (s : List α) (x : α) (h : s.Nodup) :
    (setAdd s x).Nodup := by
  unfold setAdd
  by_cases hx : x ∈ s
  · simpa [hx]
  · rw [if_neg hx]
    exact List.Nodup.append h (List.nodup_singleton x)
      (List.disjoint_singleton.mpr hx)

theorem mem_foldl_setAdd (l : List α) (s : List α) (y : α) :
    y ∈ l.foldl setAdd s ↔ y ∈ s ∨ y ∈ l := by
  induction l generalizing s with
  | nil => simp
  | cons x t ih =>
    simp only [List.foldl_cons, ih, mem_setAdd, List.mem_cons]
    tauto

theorem nodup_foldl_setAdd (l : List α) (s : List α) (h : s.Nodup) :
    (l.foldl setAdd s).Nodup := by
  induction l generalizing s with
  | nil => simpa
  | cons x t ih => exact ih _ (nodup_setAdd _ _ h)

end MapLemmas

section StringKeyLemmas

/-!
The cache keys are the strings `FILEPATH:LINE`.  The lemmas of this section
show that this encoding is injective: the line part is a nonempty string of
decimal digit characters (so it contains no colon), hence splitting a key at
its last colon is unambiguous, and the decimal representation itself is
injective because it can be decoded back to the number.
-/

theorem charVal_digitChar : ∀ k < 10, charVal (Nat.digitChar k) = k := by decide

theorem digitChar_ne_colon : ∀ k < 10, Nat.digitChar k ≠ ':' := by decide

theorem toDigitsCore_mem (fuel : Nat) :
    ∀ (n : Nat) (ds : List Char) (c : Char),
      c ∈ Nat.toDigitsCore 10 fuel n ds →
      c ∈ ds ∨ ∃ k, k < 10 ∧ c = Nat.digitChar k := by
  induction fuel with
  | zero => intro n ds c h; exact Or.inl h
  | succ fuel ih =>
    intro n ds c h
    rw [Nat.toDigitsCore] at h
    by_cases hz : n / 10 = 0
    · simp only [hz, if_pos rfl] at h
      rcases List.mem_cons.mp h with h | h
      · exact Or.inr ⟨n % 10, Nat.mod_lt _ (by norm_num), h⟩
      · exact Or.inl h
    · simp only [if_neg hz] at h
      rcases ih (n / 10) _ c h with h | h
      · rcases List.mem_cons.mp h with h | h
        · exact Or.inr ⟨n % 10, Nat.mod_lt _ (by norm_num), h⟩
        · exact Or.inl h
      · exact Or.inr h

theorem decodeAux_eq (l : List Char) :
    ∀ a : Nat, decodeAux a l = a * 10 ^ l.length + decodeDigits l := by
  induction l with
  | nil => intro a; simp [decodeAux, decodeDigits]
  | cons c t ih =>
    intro a
    show decodeAux (10 * a + charVal c) t = _
    rw [ih]
    show _ = a * 10 ^ (c :: t).length + decodeAux (10 * 0 + charVal c) t
    rw [ih (10 * 0 + charVal c)]
    simp only [List.length_cons, pow_succ, decodeDigits]
    ring

theorem decode_toDigitsCore (fuel : Nat) :
    ∀ (n : Nat) (ds : List Char), n < fuel →
      decodeDigits (Nat.toDigitsCore 10 fuel n ds) =
        n * 10 ^ ds.length + decodeDigits ds := by
  induction fuel with
  | zero => intro n ds h; omega
  | succ fuel ih =>
    intro n ds h
    rw [Nat.toDigitsCore]
    by_cases hz : n / 10 = 0
    · simp only [hz, if_pos rfl]
      have hn : n < 10 := by omega
      show decodeAux (10 * 0 + charVal (Nat.digitChar (n % 10))) ds = _
      rw [decodeAux_eq]
      have : charVal (Nat.digitChar (n % 10)) = n % 10 :=
        charVal_digitChar _ (Nat.mod_lt _ (by norm_num))
      rw [this, Nat.mod_eq_of_lt hn]
      simp
    · simp only [if_neg hz]
      have hge : 10 ≤ n := by
        by_contra hlt
        exact hz (Nat.div_eq_of_lt (by omega))
      have hdiv : n / 10 < fuel := by
        have h1 : n / 10 < n := Nat.div_lt_self (by omega) (by norm_num)
        omega
      rw [ih (n / 10) _ hdiv]
      have hcons : decodeDigits (Nat.digitChar (n % 10) :: ds) =
          (n % 10) * 10 ^ ds.length + decodeDigits ds := by
        show decodeAux (10 * 0 + charVal (Nat.digitChar (n % 10))) ds = _
        rw [decodeAux_eq,
          charVal_digitChar _ (Nat.mod_lt _ (by norm_num))]
        simp
      rw [hcons]
      have hlen : (Nat.digitChar (n % 10) :: ds).length = ds.length + 1 :=
        List.length_cons _ _
      rw [hlen, pow_succ]
      calc n / 10 * (10 ^ ds.length * 10) +
            (n % 10 * 10 ^ ds.length + decodeDigits ds)
          = (10 * (n / 10) + n % 10) * 10 ^ ds.length + decodeDigits ds := by
            ring
        _ = n * 10 ^ ds.length + decodeDigits ds := by
            rw [Nat.div_add_mod]

theorem decode_repr (n : Nat) : decodeDigits (Nat.repr n).data = n := by
  show decodeDigits (List.asString (Nat.toDigitsCore 10 (n + 1) n [])).data = n
  have hdata : (List.asString (Nat.toDigitsCore 10 (n + 1) n [])).data =
      Nat.toDigitsCore 10 (n + 1) n [] := rfl
  rw [hdata, decode_toDigitsCore (n + 1) n [] (Nat.lt_succ_self n)]
  simp [decodeDigits, decodeAux]

theorem repr_injective (n1 n2 : Nat) (h : Nat.repr n1 = Nat.repr n2) :
    n1 = n2 := by
  have := congrArg (fun s => decodeDigits s.data) h
  simpa [decode_repr] using this

theorem repr_ne_colon (n : Nat) : ∀ c ∈ (Nat.repr n).data, c ≠ ':' := by
  intro c hc
  have hd : (Nat.repr n).data = Nat.toDigitsCore 10 (n + 1) n [] := rfl
  rw [hd] at hc
  rcases toDigitsCore_mem (n + 1) n [] c hc with h | ⟨k, hk, he⟩
  · simp at h
  · exact he ▸ digitChar_ne_colon k hk

theorem splitLast_colon :
    ∀ (as as' bs bs' : List Char), ':' ∉ bs → ':' ∉ bs' →
      as ++ ':' :: bs = as' ++ ':' :: bs' → as = as' ∧ bs = bs' := by
  intro as
  induction as with
  | nil =>
    intro as' bs bs' hb hb' h
    cases as' with
    | nil => simpa using h
    | cons a t =>
      simp only [List.nil_append, List.cons_append, List.cons.injEq] at h
      exfalso
      apply hb
      rw [h.2]
      exact List.mem_append_right _ (List.mem_cons_self _ _)
  | cons a t ih =>
    intro as' bs bs' hb hb' h
    cases as' with
    | nil =>
      simp only [List.nil_append, List.cons_append, List.cons.injEq] at h
      exfalso
      apply hb'
      rw [← h.2]
      exact List.mem_append_right _ (List.mem_cons_self _ _)
    | cons a' t' =>
      simp only [List.cons_append, List.cons.injEq] at h
      obtain ⟨rfl, h2⟩ := h
      obtain ⟨h3, h4⟩ := ih t' bs bs' hb hb' h2
      exact ⟨by rw [h3], h4⟩

theorem string_data_append (a b : String) : (a ++ b).data = a.data ++ b.data := by
  cases a
  cases b
  rfl

theorem string_ext_data (a b : String) (h : a.data = b.data) : a = b := by
  cases a
  cases b
  exact congrArg String.mk h

theorem keyString_inj (f1 f2 : String) (l1 l2 : Nat)
    (h : f1 ++ ":" ++ Nat.repr l1 = f2 ++ ":" ++ Nat.repr l2) :
    f1 = f2 ∧ l1 = l2 := by
  have hd := congrArg String.data h
  rw [string_data_append, string_data_append, string_data_append,
    string_data_append] at hd
  have hc : (":" : String).data = [':'] := rfl
  rw [hc] at hd
  simp only [List.append_assoc, List.singleton_append] at hd
  obtain ⟨hf, hr⟩ := splitLast_colon f1.data f2.data (Nat.repr l1).data
    (Nat.repr l2).data (fun hmem => repr_ne_colon l1 ':' hmem rfl)
    (fun hmem => repr_ne_colon l2 ':' hmem rfl) hd
  exact ⟨string_ext_data _ _ hf, repr_injective _ _ (string_ext_data _ _ hr)⟩

theorem getKey_inj (m1 m2 : MethodInfo)
    (h : CacheService.getKey m1 = CacheService.getKey m2) :
    m1.filePath = m2.filePath ∧ m1.startLine = m2.startLine :=
  keyString_inj _ _ _ _ h

end StringKeyLemmas

section CacheLemmas

open CacheService

theorem foldl_mapDelete {α β : Type} [DecidableEq α] (ks : List α) :
    ∀ m : List (α × β),
      ks.foldl mapDelete m = m.filter (fun p => !(ks.contains p.1)) := by
  induction ks with
  | nil =>
    intro m
    simp [List.foldl_nil]
  | cons k t ih =>
    intro m
    rw [List.foldl_cons, ih (mapDelete m k), mapDelete, List.filter_filter]
    apply List.filter_congr
    intro p _
    by_cases h1 : p.1 = k
    · simp [h1]
    · simp [h1]

theorem entry_eq_of_nodupKeys {α β : Type} (m : List (α × β))
    (hnd : (mapKeys m).Nodup) (p q : α × β) (hp : p ∈ m) (hq : q ∈ m)
    (hk : p.1 = q.1) : p = q :=
  List.inj_on_of_nodup_map hnd hp hq hk

theorem clearFile_eq_filter (c : Cache) (f : String)
    (hnd : (mapKeys c).Nodup) :
    clearFile c f = c.filter (fun p => !(p.2.filePath == f)) := by
  rw [clearFile, foldl_mapDelete]
  apply List.filter_congr
  intro p hp
  by_cases hf : p.2.filePath = f
  · have hmem : p.1 ∈ (c.filter (fun q => q.2.filePath == f)).map Prod.fst :=
      List.mem_map.mpr ⟨p, List.mem_filter.mpr ⟨hp, by simp [hf]⟩, rfl⟩
    simp [hf, hmem]
  · have hnmem : p.1 ∉ (c.filter (fun q => q.2.filePath == f)).map Prod.fst := by
      intro hmem
      rcases List.mem_map.mp hmem with ⟨q, hqmem, hq1⟩
      rcases List.mem_filter.mp hqmem with ⟨hqc, hqf⟩
      have : q = p := entry_eq_of_nodupKeys c hnd q p hqc hp hq1
      rw [this] at hqf
      exact hf (by simpa using hqf)
    simp [hnmem, hf]

theorem getForFile_clearFile_self (c : Cache) (f : String) :
    getForFile (clearFile c f) f = [] := by
  rw [clearFile, foldl_mapDelete, getForFile]
  rw [List.filter_eq_nil_iff]
  intro m hm
  rcases List.mem_map.mp hm with ⟨p, hp, hpm⟩
  rcases List.mem_filter.mp hp with ⟨hpc, hcond⟩
  intro hmf
  have hpf : p.2.filePath = f := by rw [hpm]; exact (by simpa using hmf)
  have hmem : p.1 ∈ (c.filter (fun q => q.2.filePath == f)).map Prod.fst :=
    List.mem_map.mpr ⟨p, List.mem_filter.mpr ⟨hpc, by simp [hpf]⟩, rfl⟩
  simp [hmem] at hcond

theorem map_snd_filter_value {β : Type} (c : List (String × β))
    (h : β → Bool) :
    (c.filter (fun p => h p.2)).map Prod.snd = (c.map Prod.snd).filter h := by
  induction c with
  | nil => rfl
  | cons p t ih =>
    by_cases hp : h p.2
    · simp [List.filter_cons, hp, ih]
    · simp [List.filter_cons, hp, ih]

theorem getForFile_append (c1 c2 : Cache) (f : String) :
    getForFile (c1 ++ c2) f = getForFile c1 f ++ getForFile c2 f := by
  simp [getForFile]

theorem getForFile_filter_ne (c : Cache) (f g : String) (h : g ≠ f) :
    getForFile (c.filter (fun p => !(p.2.filePath == f))) g =
      getForFile c g := by
  rw [getForFile, getForFile,
    map_snd_filter_value c (fun m => !(m.filePath == f)), List.filter_filter]
  apply List.filter_congr
  intro m _
  by_cases hm : m.filePath = g
  · simp [hm, h]
  · simp [hm]

theorem add_fresh (c : Cache) (m : MethodInfo)
    (h : getKey m ∉ mapKeys c) : add c m = c ++ [(getKey m, m)] :=
  mapSet_of_not_mem c (getKey m) m h

theorem foldl_add_fresh (ms : List MethodInfo) :
    ∀ c : Cache, (∀ m ∈ ms, getKey m ∉ mapKeys c) →
      ((ms.map getKey).Nodup) →
      ms.foldl add c = c ++ ms.map (fun m => (getKey m, m)) := by
  induction ms with
  | nil => intro c _ _; simp
  | cons m t ih =>
    intro c hfresh hnd
    rw [List.foldl_cons, add_fresh c m (hfresh m (List.mem_cons_self _ _))]
    rw [List.map_cons, List.nodup_cons] at hnd
    rw [ih (c ++ [(getKey m, m)]) ?_ hnd.2]
    · simp
    · intro m' hm'
      rw [mapKeys, List.map_append]
      intro hmem
      rcases List.mem_append.mp hmem with hmem | hmem
      · exact hfresh m' (List.mem_cons_of_mem _ hm') hmem
      · simp only [List.map_cons, List.map_nil, List.mem_singleton] at hmem
        exact hnd.1 (hmem ▸ List.mem_map.mpr ⟨m', hm', rfl⟩)

theorem cacheInv_nil : CacheInv [] := by
  constructor
  · simp [mapKeys]
  · intro p hp
    simp at hp

theorem cacheInv_add (c : Cache) (m : MethodInfo) (h : CacheInv c) :
    CacheInv (add c m) := by
  obtain ⟨hnd, hkey⟩ := h
  constructor
  · rw [add, mapKeys_set]
    by_cases hk : getKey m ∈ mapKeys c
    · rw [if_pos hk]
      exact hnd
    · rw [if_neg hk]
      exact List.Nodup.append hnd (List.nodup_singleton _)
        (List.disjoint_singleton.mpr hk)
  · intro p hp
    rcases mem_mapSet c (getKey m) m p hp with h | h
    · rw [h]
    · exact hkey p h

theorem cacheInv_filter (c : Cache) (q : String × MethodInfo → Bool)
    (h : CacheInv c) : CacheInv (c.filter q) := by
  obtain ⟨hnd, hkey⟩ := h
  constructor
  · exact List.Nodup.sublist ((List.filter_sublist c).map Prod.fst) hnd
  · intro p hp
    exact hkey p (List.mem_filter.mp hp).1

theorem cacheInv_clearFile (c : Cache) (f : String) (h : CacheInv c) :
    CacheInv (clearFile c f) := by
  rw [clearFile, foldl_mapDelete]
  exact cacheInv_filter c _ h

theorem cacheInv_foldl_add (ms : List MethodInfo) :
    ∀ c : Cache, CacheInv c → CacheInv (ms.foldl add c) := by
  induction ms with
  | nil => intro c h; simpa
  | cons m t ih => intro c h; exact ih _ (cacheInv_add c m h)

theorem cacheInv_updateFile (c : Cache) (f : String) (ms : List MethodInfo)
    (h : CacheInv c) : CacheInv (updateFile c f ms) :=
  cacheInv_foldl_add ms _ (cacheInv_clearFile c f h)

theorem cacheInv_populate (c : Cache) (ms : List MethodInfo) :
    CacheInv (populate c ms) :=
  cacheInv_foldl_add ms _ cacheInv_nil

theorem cacheInv_remove (c : Cache) (m : MethodInfo) (h : CacheInv c) :
    CacheInv (remove c m) :=
  cacheInv_filter c _ h

/-- Distinct declaration lines (for instance within one file) give distinct
cache keys. -/
theorem nodup_keys_of_nodup_lines (ms : List MethodInfo)
    (hl : (ms.map (fun m => m.startLine)).Nodup) :
    (ms.map getKey).Nodup := by
  apply List.Nodup.map_on ?_ (List.Nodup.of_map _ hl)
  intro x hx y hy hxy
  exact List.inj_on_of_nodup_map hl hx hy (getKey_inj x y hxy).2

theorem updateFile_spec (c : Cache) (f : String) (ms : List MethodInfo)
    (hinv : CacheInv c) (hf : ∀ m ∈ ms, m.filePath = f)
    (hnd : (ms.map getKey).Nodup) :
    getForFile (updateFile c f ms) f = ms ∧
      (∀ g, g ≠ f → getForFile (updateFile c f ms) g = getForFile c g) := by
  have hclear : clearFile c f = c.filter (fun p => !(p.2.filePath == f)) :=
    clearFile_eq_filter c f hinv.1
  have hfresh : ∀ m ∈ ms, getKey m ∉ mapKeys (clearFile c f) := by
    intro m hm hmem
    rcases List.mem_map.mp hmem with ⟨p, hp, hpk⟩
    rw [hclear] at hp
    rcases List.mem_filter.mp hp with ⟨hpc, hcond⟩
    have hpkey : p.1 = getKey p.2 := hinv.2 p hpc
    have : p.2.filePath = m.filePath :=
      (getKey_inj p.2 m (by rw [← hpkey, hpk])).1
    rw [hf m hm] at this
    simp [this] at hcond
  have hfold := foldl_add_fresh ms (clearFile c f) hfresh hnd
  rw [updateFile, hfold]
  constructor
  · rw [getForFile_append, getForFile_clearFile_self c f, List.nil_append,
      getForFile]
    have h2 : (ms.map (fun m => (getKey m, m))).map Prod.snd = ms := by
      rw [List.map_map]
      exact List.map_id ms
    rw [h2]
    exact List.filter_eq_self.mpr (fun m hm => by simp [hf m hm])
  · intro g hg
    rw [getForFile_append, hclear, getForFile_filter_ne c f g hg]
    have h2 : getForFile (ms.map (fun m => (getKey m, m))) g = [] := by
      rw [getForFile, List.filter_eq_nil_iff]
      intro x hx
      rcases List.mem_map.mp hx with ⟨p, hp, hpx⟩
      rcases List.mem_map.mp hp with ⟨m, hm, hmp⟩
      have : x.filePath = f := by rw [← hpx, ← hmp]; exact hf m hm
      simp [this, hg.symm]
    rw [h2, List.append_nil]

end CacheLemmas

section GraphAndQueueLemmas

open DependencyTrackerService AnalysisQueue AnalysisComposer

theorem mapGet_map_values {α β γ : Type} [DecidableEq α]
    (g : List (α × β)) (F : β → γ) (k : α) :
    mapGet (g.map (fun p => (p.1, F p.2))) k = (mapGet g k).map F := by
  induction g with
  | nil => rfl
  | cons p t ih =>
    by_cases hp : p.1 = k
    · simp [mapGet, hp]
    · simp [mapGet, hp, ih]

theorem enqueue_singleton (t1 t2 : AnalysisTask) :
    enqueue [t1] t2 =
      match tryMergeTasks t1 t2 with
      | some m => ([m], m.id)
      | none => ([t1, t2], t2.id) := by
  cases h : tryMergeTasks t1 t2 with
  | none => simp [enqueue, enqueueAux, h]
  | some m => simp [enqueue, enqueueAux, h]

theorem tryMergeTasks_ws_left (t1 t2 : AnalysisTask)
    (h : t1.scope.type = .workspace) : tryMergeTasks t1 t2 = some t1 := by
  rw [tryMergeTasks, if_pos h]

theorem tryMergeTasks_ws_right (t1 t2 : AnalysisTask)
    (h1 : t1.scope.type ≠ .workspace) (h2 : t2.scope.type = .workspace) :
    tryMergeTasks t1 t2 = some t2 := by
  rw [tryMergeTasks, if_neg h1, if_pos h2]

theorem tryMergeTasks_disjoint (t1 t2 : AnalysisTask)
    (h1 : t1.scope.type ≠ .workspace) (h2 : t2.scope.type ≠ .workspace)
    (hf1 : t1.scope.files.getD [] ≠ [])
    (hf2 : t2.scope.files.getD [] ≠ [])
    (hdisj : ∀ f ∈ t1.scope.files.getD [], f ∉ t2.scope.files.getD []) :
    tryMergeTasks t1 t2 = none := by
  rw [tryMergeTasks, if_neg h1, if_neg h2]
  have hov : ((t1.scope.files.getD []).any
      (fun f => (t2.scope.files.getD []).contains f)) = false := by
    rw [List.any_eq_false]
    intro f hf
    simpa using hdisj f hf
  have hcond : (!(t1.scope.files.getD []).any
        (fun f => (t2.scope.files.getD []).contains f) &&
      !(t1.scope.files.getD []).isEmpty &&
      !(t2.scope.files.getD []).isEmpty) = true := by
    rw [hov]
    simp [List.isEmpty_iff, hf1, hf2]
  simp only [hcond]
  simp

theorem tryMergeTasks_overlap (t1 t2 : AnalysisTask)
    (h1 : t1.scope.type ≠ .workspace) (h2 : t2.scope.type ≠ .workspace)
    (f0 : String) (hf0 : f0 ∈ t1.scope.files.getD [])
    (hf0' : f0 ∈ t2.scope.files.getD []) :
    tryMergeTasks t1 t2 = some
      { id := t1.id
        scope := mergeScopes t1.scope t2.scope
        operations := mergeOperations t1.operations t2.operations
        timestamp := min t1.timestamp t2.timestamp } := by
  rw [tryMergeTasks, if_neg h1, if_neg h2]
  have hov : ((t1.scope.files.getD []).any
      (fun f => (t2.scope.files.getD []).contains f)) = true := by
    rw [List.any_eq_true]
    exact ⟨f0, hf0, by simpa using hf0'⟩
  have hcond : (!(t1.scope.files.getD []).any
        (fun f => (t2.scope.files.getD []).contains f) &&
      !(t1.scope.files.getD []).isEmpty &&
      !(t2.scope.files.getD []).isEmpty) = false := by
    rw [hov]
    simp
  simp only [hcond]
  simp

theorem mergeScopes_not_ws (s1 s2 : AnalysisScope)
    (h1 : s1.type ≠ .workspace) (h2 : s2.type ≠ .workspace) :
    mergeScopes s1 s2 =
      { type := if s1.type = .fileWithDependencies ∨
            s2.type = .fileWithDependencies then
            AnalysisScopeType.fileWithDependencies
          else AnalysisScopeType.files
        files := some ((s1.files.getD [] ++ s2.files.getD []).foldl setAdd [])
        includeDependencies :=
          orOption s1.includeDependencies s2.includeDependencies } := by
  rw [mergeScopes, if_neg (by rintro (h | h) <;> [exact h1 h; exact h2 h])]

end GraphAndQueueLemmas

section ClaimsBasic

open DependencyTrackerService AnalysisQueue AnalysisComposer AnalysisExecutor

/-- C3: the code comments in `composeFileDeletionAnalysis` promise the
deletion task resolves to the deleted file's dependents only, excluding the
deleted file; the executor instead expands the scope to the deleted file
itself plus the files *it* references (outbound edges).  With
`consumer.dart → provider.dart` recorded, deleting `provider.dart` resolves
to exactly `[provider.dart]`: the dependent `consumer.dart` is absent and the
deleted file itself is present. -/
theorem claim_C3_deletion_scope_resolution :
    resolveScope
        (setDependencies [] "consumer.dart" ["provider.dart"]) ["w.dart"]
        (composeFileDeletionAnalysis "task-1" 0 "provider.dart") =
      ["provider.dart"] ∧
    "consumer.dart" ∉ resolveScope
        (setDependencies [] "consumer.dart" ["provider.dart"]) ["w.dart"]
        (composeFileDeletionAnalysis "task-1" 0 "provider.dart") ∧
    "provider.dart" ∈ resolveScope
        (setDependencies [] "consumer.dart" ["provider.dart"]) ["w.dart"]
        (composeFileDeletionAnalysis "task-1" 0 "provider.dart") := by
  refine ⟨by decide, by decide, by decide⟩

/-- C6 counterexample: with a self-edge `A → A`, `removeFile A` returns the
empty set, not `A`'s former outbound edge set `[A]` — the returned `Set`
object is the one the pruning loop just mutated. -/
theorem claim_C6_counterexample :
    (removeFile (setDependencies [] "A" ["A"]) "A").1 ≠
      getDependencies (setDependencies [] "A" ["A"]) "A" := by
  decide

/-- C6 (amended): `removeFile A` returns `A`'s former outbound edge set with
any self-edge removed; afterwards no file's dependency set contains `A`
(in particular `B`'s set is empty after `setDependencies B [A]`), every
other file's set is its former set minus `A`, and `A`'s own entry is
deleted. -/
theorem claim_C6_removeFile (g : DepGraph) (a : String) :
    (removeFile g a).1 = (getDependencies g a).filter (fun f => !(f == a)) ∧
    (∀ f, a ∉ getDependencies (removeFile g a).2 f) ∧
    (∀ f, f ≠ a → getDependencies (removeFile g a).2 f =
      (getDependencies g f).filter (fun x => !(x == a))) ∧
    mapGet (removeFile g a).2 a = none := by
  refine ⟨rfl, ?_, ?_, ?_⟩
  · intro f hmem
    rw [removeFile] at hmem
    simp only [getDependencies] at hmem
    by_cases hfa : f = a
    · rw [hfa, mapGet_delete_self] at hmem
      simp at hmem
    · rw [mapGet_delete_ne _ _ _ hfa, mapGet_map_values] at hmem
      cases hg : mapGet g f with
      | none => rw [hg] at hmem; simp at hmem
      | some s =>
        rw [hg] at hmem
        simp at hmem
  · intro f hfa
    rw [removeFile]
    simp only [getDependencies]
    rw [mapGet_delete_ne _ _ _ hfa, mapGet_map_values]
    cases hg : mapGet g f with
    | none => simp
    | some s => simp
  · exact mapGet_delete_self _ _

/-- C6 witness: the amended statement applied at the spec's own scenario
(`setDependencies B [A]`, then `removeFile A`, with `A` also carrying a
self-edge). -/
theorem claim_C6_removeFile_witness :
    (removeFile (setDependencies (setDependencies [] "B" ["A"]) "A" ["A", "C"]) "A").1 =
      (getDependencies (setDependencies (setDependencies [] "B" ["A"]) "A" ["A", "C"]) "A").filter
        (fun f => !(f == "A")) ∧
    "A" ∉ getDependencies
      (removeFile (setDependencies (setDependencies [] "B" ["A"]) "A" ["A", "C"]) "A").2 "B" ∧
    getDependencies
      (removeFile (setDependencies (setDependencies [] "B" ["A"]) "A" ["A", "C"]) "A").2 "B" =
      (getDependencies (setDependencies (setDependencies [] "B" ["A"]) "A" ["A", "C"]) "B").filter
        (fun x => !(x == "A")) := by
  obtain ⟨hret, hnomem, hother, _⟩ :=
    claim_C6_removeFile
      (setDependencies (setDependencies [] "B" ["A"]) "A" ["A", "C"]) "A"
  exact ⟨hret, hnomem "B", hother "B" (by decide)⟩

/-- C4 counterexample: with two disjoint files-scope tasks queued, enqueuing
a workspace task merges it into the first entry only, leaving two queued
tasks, not one. -/
theorem claim_C4_counterexample :
    (enqueue (enqueue (enqueue []
        (AnalysisTask.mk "t1" (AnalysisScope.mk .files (some ["a"]) none) [] 5)).1
        (AnalysisTask.mk "t2" (AnalysisScope.mk .files (some ["b"]) none) [] 6)).1
        (AnalysisTask.mk "t3" (AnalysisScope.mk .workspace none none) [] 7)).1.length = 2 ∧
    (enqueue (enqueue (enqueue []
        (AnalysisTask.mk "t1" (AnalysisScope.mk .files (some ["a"]) none) [] 5)).1
        (AnalysisTask.mk "t2" (AnalysisScope.mk .files (some ["b"]) none) [] 6)).1
        (AnalysisTask.mk "t3" (AnalysisScope.mk .workspace none none) [] 7)).1.length ≠ 1 := by
  refine ⟨by decide, by decide⟩

/-- C4 (amended): pairwise, a workspace task absorbs the other task of the
pair — merging with an existing workspace task yields that task, and a new
workspace task replaces a non-workspace queued task; when the queue holds
exactly the one files-scope task, enqueuing a workspace task therefore
leaves exactly one queued task, the workspace one.  (Quantified over every
queue state the original claim is false: with several disjoint tasks queued
the workspace task replaces only the first.) -/
theorem claim_C4_workspace_absorbs (t1 t2 : AnalysisTask) :
    (t2.scope.type = .workspace → t1.scope.type ≠ .workspace →
      enqueue [t1] t2 = ([t2], t2.id)) ∧
    (t1.scope.type = .workspace → enqueue [t1] t2 = ([t1], t1.id)) ∧
    (t1.scope.type = .workspace → tryMergeTasks t1 t2 = some t1) ∧
    (t1.scope.type ≠ .workspace → t2.scope.type = .workspace →
      tryMergeTasks t1 t2 = some t2) := by
  refine ⟨?_, ?_, ?_, ?_⟩
  · intro h2 h1
    rw [enqueue_singleton, tryMergeTasks_ws_right t1 t2 h1 h2]
  · intro h1
    rw [enqueue_singleton, tryMergeTasks_ws_left t1 t2 h1]
  · exact fun h1 => tryMergeTasks_ws_left t1 t2 h1
  · exact fun h1 h2 => tryMergeTasks_ws_right t1 t2 h1 h2

/-- C4 witness: the amended statement applied to a queued files task and an
incoming workspace task. -/
theorem claim_C4_workspace_absorbs_witness :
    enqueue [AnalysisTask.mk "t1" (AnalysisScope.mk .files (some ["a"]) none) [] 5]
        (AnalysisTask.mk "t3" (AnalysisScope.mk .workspace none none) [] 7) =
      ([AnalysisTask.mk "t3" (AnalysisScope.mk .workspace none none) [] 7], "t3") ∧
    enqueue [AnalysisTask.mk "t0" (AnalysisScope.mk .workspace none none) [] 1]
        (AnalysisTask.mk "t1" (AnalysisScope.mk .files (some ["a"]) none) [] 5) =
      ([AnalysisTask.mk "t0" (AnalysisScope.mk .workspace none none) [] 1], "t0") := by
  constructor
  · exact (claim_C4_workspace_absorbs
      (AnalysisTask.mk "t1" (AnalysisScope.mk .files (some ["a"]) none) [] 5)
      (AnalysisTask.mk "t3" (AnalysisScope.mk .workspace none none) [] 7)).1
      (by decide) (by decide)
  · exact (claim_C4_workspace_absorbs
      (AnalysisTask.mk "t0" (AnalysisScope.mk .workspace none none) [] 1)
      (AnalysisTask.mk "t1" (AnalysisScope.mk .files (some ["a"]) none) [] 5)).2.1
      (by decide)

/-- C5: for two queued-able non-workspace tasks with non-empty file sets:
disjoint file sets refuse the merge (two queued tasks), overlapping file
sets produce a single merged task whose file set is the union, whose scope
type is `file_with_dependencies` iff either side has it, and whose
timestamp is the earlier one. -/
theorem claim_C5_files_merge (t1 t2 : AnalysisTask)
    (h1 : t1.scope.type ≠ .workspace) (h2 : t2.scope.type ≠ .workspace)
    (hf1 : t1.scope.files.getD [] ≠ []) (hf2 : t2.scope.files.getD [] ≠ []) :
    ((∀ f ∈ t1.scope.files.getD [], f ∉ t2.scope.files.getD []) →
      enqueue [t1] t2 = ([t1, t2], t2.id)) ∧
    (∀ f0, f0 ∈ t1.scope.files.getD [] → f0 ∈ t2.scope.files.getD [] →
      ∃ m, enqueue [t1] t2 = ([m], t1.id) ∧
        (∀ f, f ∈ m.scope.files.getD [] ↔
          f ∈ t1.scope.files.getD [] ∨ f ∈ t2.scope.files.getD []) ∧
        (m.scope.type = .fileWithDependencies ↔
          (t1.scope.type = .fileWithDependencies ∨
            t2.scope.type = .fileWithDependencies)) ∧
        m.timestamp = min t1.timestamp t2.timestamp) := by
  constructor
  · intro hdisj
    rw [enqueue_singleton, tryMergeTasks_disjoint t1 t2 h1 h2 hf1 hf2 hdisj]
  · intro f0 hf0 hf0'
    refine ⟨AnalysisTask.mk t1.id (mergeScopes t1.scope t2.scope)
      (mergeOperations t1.operations t2.operations)
      (min t1.timestamp t2.timestamp), ?_, ?_, ?_, rfl⟩
    · rw [enqueue_singleton, tryMergeTasks_overlap t1 t2 h1 h2 f0 hf0 hf0']
    · intro f
      rw [mergeScopes_not_ws t1.scope t2.scope h1 h2]
      simp only [Option.getD_some]
      rw [mem_foldl_setAdd]
      simp [List.mem_append]
    · rw [mergeScopes_not_ws t1.scope t2.scope h1 h2]
      by_cases hd : t1.scope.type = .fileWithDependencies ∨
          t2.scope.type = .fileWithDependencies
      · rw [if_pos hd]
        simp [hd]
      · rw [if_neg hd]
        simp [hd]

/-- C5 witness: both branches applied at concrete tasks — a disjoint pair
stays two tasks, an overlapping pair merges into the union with the earlier
timestamp. -/
theorem claim_C5_files_merge_witness :
    (enqueue [AnalysisTask.mk "t1" (AnalysisScope.mk .files (some ["a"]) none) [] 5]
        (AnalysisTask.mk "t2" (AnalysisScope.mk .files (some ["b"]) none) [] 6) =
      ([AnalysisTask.mk "t1" (AnalysisScope.mk .files (some ["a"]) none) [] 5,
        AnalysisTask.mk "t2" (AnalysisScope.mk .files (some ["b"]) none) [] 6], "t2")) ∧
    (∃ m, enqueue [AnalysisTask.mk "t1" (AnalysisScope.mk .files (some ["a"]) none) [] 5]
        (AnalysisTask.mk "t2" (AnalysisScope.mk .fileWithDependencies (some ["a", "c"]) none) [] 3) =
      ([m], "t1") ∧
      (∀ f, f ∈ m.scope.files.getD [] ↔ f ∈ ["a"] ∨ f ∈ ["a", "c"]) ∧
      (m.scope.type = .fileWithDependencies ↔
        (AnalysisScopeType.files = .fileWithDependencies ∨
          AnalysisScopeType.fileWithDependencies = .fileWithDependencies)) ∧
      m.timestamp = min 5 3) := by
  constructor
  · exact (claim_C5_files_merge
      (AnalysisTask.mk "t1" (AnalysisScope.mk .files (some ["a"]) none) [] 5)
      (AnalysisTask.mk "t2" (AnalysisScope.mk .files (some ["b"]) none) [] 6)
      (by decide) (by decide) (by decide) (by decide)).1 (by decide)
  · exact (claim_C5_files_merge
      (AnalysisTask.mk "t1" (AnalysisScope.mk .files (some ["a"]) none) [] 5)
      (AnalysisTask.mk "t2" (AnalysisScope.mk .fileWithDependencies (some ["a", "c"]) none) [] 3)
      (by decide) (by decide) (by decide) (by decide)).2 "a" (by decide) (by decide)

end ClaimsBasic

section ClaimsReferenceAndCache

open CacheService ReferenceAnalyzer

/-- C1: a symbol is reported unused iff, after dropping references in
excluded files, no reference other than a self-reference (same file, same
declaration start line) remains; in particular any symbol with a non-self,
non-excluded reference is reported used. -/
theorem claim_C1_unused_iff_no_usage (minimatch : String → String → Bool)
    (relativeTo : String → String → String) (method : MethodInfo)
    (excludePatterns : List String) (workspacePath : String)
    (references : List CodeLocation) :
    (isMethodUnused minimatch relativeTo method
        excludePatterns workspacePath references = true ↔
      (filterExcludedReferences minimatch relativeTo
          references excludePatterns workspacePath).filter
        (fun ref => !(isSelfReference method ref)) = []) ∧
    (∀ ref ∈ references,
      (getMatchedPattern minimatch
          (relativeTo workspacePath ref.fsPath) excludePatterns).isNone = true →
      isSelfReference method ref = false →
      isMethodUnused minimatch relativeTo method
        excludePatterns workspacePath references = false) := by
  constructor
  · by_cases h0 : references.length = 0
    · have he : references = [] := List.length_eq_zero.mp h0
      subst he
      simp [isMethodUnused, filterExcludedReferences]
    · rw [isMethodUnused, if_neg h0]
      simp [List.length_eq_zero]
  · intro ref href hpat hself
    have hmem : ref ∈ (filterExcludedReferences minimatch
        relativeTo references excludePatterns workspacePath).filter
        (fun r => !(isSelfReference method r)) :=
      List.mem_filter.mpr
        ⟨List.mem_filter.mpr ⟨href, hpat⟩, by simp [hself]⟩
    have h0 : ¬references.length = 0 := by
      intro h0
      rw [List.length_eq_zero.mp h0] at hmem
      simp [filterExcludedReferences] at hmem
    rw [isMethodUnused, if_neg h0]
    have hne : (filterExcludedReferences minimatch relativeTo references
        excludePatterns workspacePath).filter
        (fun r => !(isSelfReference method r)) ≠ [] := by
      intro hq
      rw [hq] at hmem
      simp at hmem
    simpa [List.length_eq_zero] using hne

/-- C1 witness: a symbol with one non-self, non-excluded reference is
reported used. -/
theorem claim_C1_witness :
    isMethodUnused (fun _ _ => false) (fun _ p => p)
      (MethodInfo.mk "m" "a.dart" 1 false none) [] "ws"
      [CodeLocation.mk "b.dart" 3] = false :=
  (claim_C1_unused_iff_no_usage (fun _ _ => false) (fun _ p => p)
      (MethodInfo.mk "m" "a.dart" 1 false none) [] "ws"
      [CodeLocation.mk "b.dart" 3]).2
    (CodeLocation.mk "b.dart" 3) (by decide) (by decide) (by decide)

/-- C7 counterexample: `updateFile` re-adds whatever symbols it is handed,
keyed by the symbol's own file, so updating file `a.dart` with a symbol
whose `filePath` is `b.dart` changes the entries of `b.dart`, contradicting
"entries for every other file are unchanged". -/
theorem claim_C7_counterexample :
    getForFile
        (updateFile [] "a.dart" [MethodInfo.mk "s" "b.dart" 1 false none])
        "b.dart" ≠
      getForFile ([] : Cache) "b.dart" := by
  decide

/-- C7 (amended): on a well-formed cache, for a symbol list whose symbols
all belong to file `F` and carry pairwise distinct declaration lines,
`updateFile F ms` leaves the cache's entries for `F` exactly `ms` while
entries of every other file are unchanged; in particular a subsequent
`updateFile F []` leaves zero entries for `F`.  (The original claim fails
for symbol lists containing symbols of other files, which `updateFile`
happily re-adds under their own file's key.) -/
theorem claim_C7_updateFile (c : Cache) (f : String) (ms : List MethodInfo)
    (hinv : CacheInv c) (hf : ∀ m ∈ ms, m.filePath = f)
    (hl : (ms.map (fun m => m.startLine)).Nodup) :
    getForFile (updateFile c f ms) f = ms ∧
    (∀ g, g ≠ f → getForFile (updateFile c f ms) g = getForFile c g) ∧
    getForFile (updateFile (updateFile c f ms) f []) f = [] := by
  have hkeys := nodup_keys_of_nodup_lines ms hl
  obtain ⟨ha, hb⟩ := updateFile_spec c f ms hinv hf hkeys
  refine ⟨ha, hb, ?_⟩
  have hinv2 := cacheInv_updateFile c f ms hinv
  exact (updateFile_spec (updateFile c f ms) f [] hinv2
    (by intro m hm; simp at hm) (by simp)).1

/-- C7 witness: the amended statement applied at the spec's own scenario,
`updateFile F [s1, s2]` followed by `updateFile F []`. -/
theorem claim_C7_updateFile_witness :
    getForFile (updateFile [] "F"
      [MethodInfo.mk "s1" "F" 1 false none,
        MethodInfo.mk "s2" "F" 2 false none]) "F" =
      [MethodInfo.mk "s1" "F" 1 false none,
        MethodInfo.mk "s2" "F" 2 false none] ∧
    getForFile (updateFile (updateFile [] "F"
      [MethodInfo.mk "s1" "F" 1 false none,
        MethodInfo.mk "s2" "F" 2 false none]) "F" []) "F" = [] := by
  obtain ⟨h1, _, h3⟩ := claim_C7_updateFile [] "F"
    [MethodInfo.mk "s1" "F" 1 false none, MethodInfo.mk "s2" "F" 2 false none]
    cacheInv_nil (by decide) (by decide)
  exact ⟨h1, h3⟩

/-- C10: every cache operation preserves the at-most-one-entry-per
`(filePath, declaration line)` invariant; adding a symbol whose file and
line equal an existing entry's replaces that entry in place; and on an
invariant-respecting cache `getAll` never returns two symbols sharing both
file and declaration line. -/
theorem claim_C10_cache_invariant :
    (∀ c m, CacheInv c → CacheInv (add c m)) ∧
    (∀ c m, CacheInv c → CacheInv (remove c m)) ∧
    (∀ c f ms, CacheInv c → CacheInv (updateFile c f ms)) ∧
    (∀ c ms, CacheInv (populate c ms)) ∧
    (∀ c f, CacheInv c → CacheInv (clearFile c f)) ∧
    (∀ c, CacheInv (clear c)) ∧
    (∀ c m p, CacheInv c → p ∈ c → p.2.filePath = m.filePath →
      p.2.startLine = m.startLine →
      (add c m).length = c.length ∧ mapGet (add c m) (getKey m) = some m) ∧
    (∀ c, CacheInv c →
      (getAll c).Pairwise
        (fun a b => ¬(a.filePath = b.filePath ∧ a.startLine = b.startLine))) := by
  refine ⟨cacheInv_add, cacheInv_remove, cacheInv_updateFile,
    cacheInv_populate, cacheInv_clearFile, fun c => cacheInv_nil,
    ?_, ?_⟩
  · intro c m p hinv hpmem hfile hline
    have hkeyp : p.1 = getKey m := by
      rw [hinv.2 p hpmem, getKey, getKey, hfile, hline]
    have hmem : getKey m ∈ mapKeys c :=
      List.mem_map.mpr ⟨p, hpmem, hkeyp⟩
    exact ⟨length_mapSet_of_mem c (getKey m) m hmem,
      mapGet_set_self c (getKey m) m⟩
  · intro c hinv
    have hp1 : c.Pairwise (fun p q => p.1 ≠ q.1) :=
      (List.pairwise_map).mp hinv.1
    have hp2 : c.Pairwise (fun p q =>
        ¬(p.2.filePath = q.2.filePath ∧ p.2.startLine = q.2.startLine)) := by
      refine List.Pairwise.imp_of_mem ?_ hp1
      intro p q hpmem hqmem hne hcontra
      apply hne
      rw [hinv.2 p hpmem, hinv.2 q hqmem, getKey, getKey,
        hcontra.1, hcontra.2]
    exact (List.pairwise_map).mpr hp2

/-- C10 witness: the invariant holds after an `add` on the empty cache, and
adding a second symbol at the same file and line replaces the first entry
in place. -/
theorem claim_C10_cache_invariant_witness :
    CacheInv (add [] (MethodInfo.mk "x" "F" 1 false none)) ∧
    (add [(getKey (MethodInfo.mk "x" "F" 1 false none),
        MethodInfo.mk "x" "F" 1 false none)]
      (MethodInfo.mk "y" "F" 1 false none)).length = 1 ∧
    mapGet (add [(getKey (MethodInfo.mk "x" "F" 1 false none),
        MethodInfo.mk "x" "F" 1 false none)]
      (MethodInfo.mk "y" "F" 1 false none))
      (getKey (MethodInfo.mk "y" "F" 1 false none)) =
      some (MethodInfo.mk "y" "F" 1 false none) := by
  refine ⟨claim_C10_cache_invariant.1 [] (MethodInfo.mk "x" "F" 1 false none)
    cacheInv_nil, ?_⟩
  have h := claim_C10_cache_invariant.2.2.2.2.2.2.1
    [(getKey (MethodInfo.mk "x" "F" 1 false none),
      MethodInfo.mk "x" "F" 1 false none)]
    (MethodInfo.mk "y" "F" 1 false none)
    (getKey (MethodInfo.mk "x" "F" 1 false none),
      MethodInfo.mk "x" "F" 1 false none)
    ⟨by decide, by decide⟩ (by decide) (by decide) (by decide)
  exact h

end ClaimsReferenceAndCache

section MergeOperationsLemmas

open AnalysisComposer AnalysisQueue

theorem mapKeys_mergeOperationsStep
    (acc : List (AnalysisOperationType × List String))
    (op : AnalysisOperation) :
    mapKeys (mergeOperationsStep acc op) = setAdd (mapKeys acc) op.type := by
  rw [mergeOperationsStep, mapKeys_set, setAdd]

theorem mergeOperations_foldl_keys (ops : List AnalysisOperation) :
    ∀ acc, mapKeys (ops.foldl mergeOperationsStep acc) =
      (ops.map (fun op => op.type)).foldl setAdd (mapKeys acc) := by
  induction ops with
  | nil => intro acc; rfl
  | cons op t ih =>
    intro acc
    rw [List.foldl_cons, ih, mapKeys_mergeOperationsStep, List.map_cons,
      List.foldl_cons]

theorem mem_get_mergeOperationsStep
    (acc : List (AnalysisOperationType × List String))
    (op : AnalysisOperation) (T : AnalysisOperationType) (f : String) :
    f ∈ (mapGet (mergeOperationsStep acc op) T).getD [] ↔
      f ∈ (mapGet acc T).getD [] ∨ (op.type = T ∧ f ∈ op.files) := by
  by_cases hT : op.type = T
  · subst hT
    rw [mergeOperationsStep, mapGet_set_self]
    simp only [Option.getD_some]
    rw [mem_foldl_setAdd]
    tauto
  · rw [mergeOperationsStep,
      mapGet_set_ne acc op.type T _ (fun he => hT he.symm)]
    tauto

theorem mem_get_foldl_mergeStep (ops : List AnalysisOperation) :
    ∀ acc T f,
      f ∈ (mapGet (ops.foldl mergeOperationsStep acc) T).getD [] ↔
        f ∈ (mapGet acc T).getD [] ∨ ∃ op ∈ ops, op.type = T ∧ f ∈ op.files := by
  induction ops with
  | nil =>
    intro acc T f
    simp
  | cons op t ih =>
    intro acc T f
    rw [List.foldl_cons, ih, mem_get_mergeOperationsStep,
      List.exists_mem_cons_iff]
    tauto

theorem mergeOperations_types (ops1 ops2 : List AnalysisOperation) :
    (mergeOperations ops1 ops2).map (fun op => op.type) =
      ((ops1 ++ ops2).map (fun op => op.type)).foldl setAdd [] := by
  rw [mergeOperations, List.map_map]
  exact mergeOperations_foldl_keys (ops1 ++ ops2) []

theorem mergeOperations_files (ops1 ops2 : List AnalysisOperation)
    (op : AnalysisOperation) (hop : op ∈ mergeOperations ops1 ops2)
    (f : String) :
    f ∈ op.files ↔ ∃ op' ∈ ops1 ++ ops2, op'.type = op.type ∧ f ∈ op'.files := by
  rw [mergeOperations] at hop
  rcases List.mem_map.mp hop with ⟨p, hp, hpe⟩
  have hnd : (mapKeys ((ops1 ++ ops2).foldl mergeOperationsStep [])).Nodup := by
    rw [mergeOperations_foldl_keys]
    exact nodup_foldl_setAdd _ _ (by simp [mapKeys])
  have hget := mapGet_of_mem_of_nodupKeys _ p.1 p.2 hnd
    (by exact Prod.mk.eta ▸ hp)
  have hmem := mem_get_foldl_mergeStep (ops1 ++ ops2) [] p.1 f
  rw [hget] at hmem
  simp only [Option.getD_some, mapGet, false_iff, false_or] at hmem
  rw [← hpe]
  simp only
  rw [hmem]
  simp [mapGet]

end MergeOperationsLemmas

section ClaimsMergeOperations

open AnalysisComposer AnalysisQueue

/-- C9: merging two operation lists yields exactly one operation per
operation type present in either list, ordered by the type's first
appearance in the existing list followed by the new one, each carrying the
union of that type's file sets; consequently merging a
`check_references`-only recheck list into an extract-then-check list puts
`check_references` before `extract_symbols`. -/
theorem claim_C9_mergeOperations :
    (∀ ops1 ops2 : List AnalysisOperation,
      (mergeOperations ops1 ops2).map (fun op => op.type) =
        ((ops1 ++ ops2).map (fun op => op.type)).foldl setAdd []) ∧
    (∀ ops1 ops2 : List AnalysisOperation,
      ((mergeOperations ops1 ops2).map (fun op => op.type)).Nodup) ∧
    (∀ ops1 ops2 : List AnalysisOperation,
      ∀ op ∈ mergeOperations ops1 ops2, ∀ f,
        f ∈ op.files ↔
          ∃ op' ∈ ops1 ++ ops2, op'.type = op.type ∧ f ∈ op'.files) ∧
    (∀ t1 t2 m, t1.scope.type ≠ .workspace → t2.scope.type ≠ .workspace →
      tryMergeTasks t1 t2 = some m →
      m.operations = mergeOperations t1.operations t2.operations) ∧
    (∀ fs fs2 fs3 : List String,
      (mergeOperations [AnalysisOperation.mk .checkReferences fs]
          [AnalysisOperation.mk .extractMethods fs2,
            AnalysisOperation.mk .checkReferences fs3]).map
        (fun op => op.type) =
      [AnalysisOperationType.checkReferences,
        AnalysisOperationType.extractMethods]) := by
  refine ⟨mergeOperations_types, ?_, mergeOperations_files, ?_, ?_⟩
  · intro ops1 ops2
    rw [mergeOperations_types]
    exact nodup_foldl_setAdd _ _ (List.nodup_nil)
  · intro t1 t2 m h1 h2 hm
    rw [tryMergeTasks, if_neg h1, if_neg h2] at hm
    dsimp only at hm
    split at hm
    · cases hm
    · injection hm with h
      rw [← h]
  · intro fs fs2 fs3
    rw [mergeOperations_types]
    rfl

/-- C9 witness: the merged-operations facts applied at the recheck-plus-
extract scenario (`check_references [a]` merged with
`extract_symbols [] ; check_references [b]`). -/
theorem claim_C9_mergeOperations_witness :
    ((mergeOperations [AnalysisOperation.mk .checkReferences ["a"]]
        [AnalysisOperation.mk .extractMethods [],
          AnalysisOperation.mk .checkReferences ["b"]]).map
      (fun op => op.type) =
      [AnalysisOperationType.checkReferences,
        AnalysisOperationType.extractMethods]) ∧
    (∀ f, f ∈ (AnalysisOperation.mk AnalysisOperationType.checkReferences
        ["a", "b"]).files ↔
      ∃ op' ∈ [AnalysisOperation.mk AnalysisOperationType.checkReferences ["a"]] ++
          [AnalysisOperation.mk .extractMethods [],
            AnalysisOperation.mk .checkReferences ["b"]],
        op'.type = (AnalysisOperation.mk AnalysisOperationType.checkReferences
          ["a", "b"]).type ∧ f ∈ op'.files) := by
  constructor
  · exact claim_C9_mergeOperations.2.2.2.2 ["a"] [] ["b"]
  · exact claim_C9_mergeOperations.2.2.1
      [AnalysisOperation.mk .checkReferences ["a"]]
      [AnalysisOperation.mk .extractMethods [],
        AnalysisOperation.mk .checkReferences ["b"]]
      (AnalysisOperation.mk AnalysisOperationType.checkReferences ["a", "b"])
      (by decide)

end ClaimsMergeOperations

section CheckReferencesLemmas

open CacheService AnalysisExecutor

theorem nodup_keys_of_nodup_pairs (ms : List MethodInfo)
    (h : (ms.map (fun m => (m.filePath, m.startLine))).Nodup) :
    (ms.map getKey).Nodup := by
  apply List.Nodup.map_on ?_ (List.Nodup.of_map _ h)
  intro x hx y hy hxy
  have hpair := getKey_inj x y hxy
  exact List.inj_on_of_nodup_map h hx hy
    (by rw [Prod.mk.injEq]; exact ⟨hpair.1, hpair.2⟩)

theorem getForFile_eq_filter_getAll (c : Cache) (f : String) :
    getForFile c f = (getAll c).filter (fun m => m.filePath == f) := rfl

theorem mem_getForFile_self (c : Cache) (m : MethodInfo) :
    m ∈ getForFile c m.filePath ↔ m ∈ getAll c := by
  rw [getForFile_eq_filter_getAll]
  simp

theorem mem_getAll_of_mem_getForFile (c : Cache) (f : String)
    (m : MethodInfo) (h : m ∈ getForFile c f) : m ∈ getAll c := by
  rw [getForFile_eq_filter_getAll] at h
  exact (List.mem_filter.mp h).1

theorem getForFile_eq_nil_iff (c : Cache) (f : String) :
    getForFile c f = [] ↔ ∀ p ∈ c, p.2.filePath ≠ f := by
  rw [getForFile, List.filter_eq_nil_iff]
  constructor
  · intro h p hp hcontra
    exact h p.2 (List.mem_map.mpr ⟨p, hp, rfl⟩) (by simp [hcontra])
  · intro h m hmem hcontra
    rcases List.mem_map.mp hmem with ⟨p, hp, hpm⟩
    exact h p hp (by rw [hpm]; simpa using hcontra)

theorem clearFile_subset (c : Cache) (g : String) (p : String × MethodInfo)
    (hp : p ∈ clearFile c g) : p ∈ c := by
  rw [clearFile, foldl_mapDelete] at hp
  exact (List.mem_filter.mp hp).1

theorem getForFile_clearFile_of_nil (c : Cache) (f g : String)
    (h : getForFile c f = []) : getForFile (clearFile c g) f = [] := by
  rw [getForFile_eq_nil_iff] at h ⊢
  intro p hp
  exact h p (clearFile_subset c g p hp)

theorem getForFile_clearFile_ne (c : Cache) (f g : String)
    (hinv : CacheInv c) (hne : f ≠ g) :
    getForFile (clearFile c g) f = getForFile c f := by
  rw [clearFile_eq_filter c g hinv.1]
  exact getForFile_filter_ne c g f hne

theorem groupFold_get_some (l : List MethodInfo) :
    ∀ (acc : List (String × List MethodInfo)) (f : String)
      (cur : List MethodInfo), mapGet acc f = some cur →
      mapGet (l.foldl groupStep acc) f =
        some (cur ++ l.filter (fun m => m.filePath == f)) := by
  induction l with
  | nil =>
    intro acc f cur h
    simpa using h
  | cons m t ih =>
    intro acc f cur h
    rw [List.foldl_cons]
    by_cases hm : m.filePath = f
    · have hstep : mapGet (groupStep acc m) f = some (cur ++ [m]) := by
        rw [groupStep, hm, mapGet_set_self, h]
        rfl
      rw [ih (groupStep acc m) f (cur ++ [m]) hstep, List.filter_cons]
      simp [hm, List.append_assoc]
    · have hstep : mapGet (groupStep acc m) f = some cur := by
        rw [groupStep, mapGet_set_ne acc m.filePath f _ (fun he => hm he.symm)]
        exact h
      rw [ih (groupStep acc m) f cur hstep, List.filter_cons]
      simp [hm]

theorem groupFold_get_none (l : List MethodInfo) :
    ∀ (acc : List (String × List MethodInfo)) (f : String),
      mapGet acc f = none →
      mapGet (l.foldl groupStep acc) f =
        if l.filter (fun m => m.filePath == f) = [] then none
        else some (l.filter (fun m => m.filePath == f)) := by
  induction l with
  | nil =>
    intro acc f h
    simpa using h
  | cons m t ih =>
    intro acc f h
    rw [List.foldl_cons]
    by_cases hm : m.filePath = f
    · have hstep : mapGet (groupStep acc m) f = some [m] := by
        rw [groupStep, hm, mapGet_set_self, h]
        rfl
      rw [groupFold_get_some t (groupStep acc m) f [m] hstep,
        List.filter_cons]
      simp [hm]
    · have hstep : mapGet (groupStep acc m) f = none := by
        rw [groupStep, mapGet_set_ne acc m.filePath f _ (fun he => hm he.symm)]
        exact h
      rw [ih (groupStep acc m) f hstep, List.filter_cons]
      simp [hm]

theorem groupByFile_get (l : List MethodInfo) (f : String) :
    mapGet (groupByFile l) f =
      if l.filter (fun m => m.filePath == f) = [] then none
      else some (l.filter (fun m => m.filePath == f)) :=
  groupFold_get_none l [] f rfl

theorem nodup_keys_foldl_groupStep (l : List MethodInfo) :
    ∀ acc, (mapKeys acc).Nodup →
      (mapKeys (l.foldl groupStep acc)).Nodup := by
  induction l with
  | nil => intro acc h; simpa using h
  | cons m t ih =>
    intro acc h
    rw [List.foldl_cons]
    apply ih
    rw [groupStep, mapKeys_set]
    by_cases hk : m.filePath ∈ mapKeys acc
    · rwa [if_pos hk]
    · rw [if_neg hk]
      exact List.Nodup.append h (List.nodup_singleton _)
        (List.disjoint_singleton.mpr hk)

theorem nodup_keys_groupByFile (l : List MethodInfo) :
    (mapKeys (groupByFile l)).Nodup :=
  nodup_keys_foldl_groupStep l [] (by simp [mapKeys])

end CheckReferencesLemmas

section CheckReferencesFoldLemmas

open CacheService AnalysisExecutor

theorem updFold_inv (gs : List (String × List MethodInfo)) :
    ∀ st : CheckState, CacheInv st.cache →
      CacheInv ((gs.foldl updStep st).cache) := by
  induction gs with
  | nil => intro st h; simpa using h
  | cons p t ih =>
    intro st h
    rw [List.foldl_cons]
    exact ih _ (cacheInv_updateFile st.cache p.1 p.2 h)

theorem updFold_cache_not_mem (gs : List (String × List MethodInfo)) :
    ∀ (st : CheckState) (f : String), CacheInv st.cache →
      (∀ p ∈ gs, ∀ m ∈ p.2, m.filePath = p.1) →
      (∀ p ∈ gs, ((p.2).map getKey).Nodup) →
      f ∉ mapKeys gs →
      getForFile ((gs.foldl updStep st).cache) f = getForFile st.cache f := by
  induction gs with
  | nil => intro st f _ _ _ _; rfl
  | cons p t ih =>
    intro st f hinv hvals hvkeys hf
    rw [List.foldl_cons]
    have hfp : f ≠ p.1 := by
      intro he
      exact hf (by rw [he]; exact List.mem_map.mpr ⟨p, List.mem_cons_self _ _, rfl⟩)
    have hspec := updateFile_spec st.cache p.1 p.2 hinv
      (hvals p (List.mem_cons_self _ _)) (hvkeys p (List.mem_cons_self _ _))
    rw [ih (updStep st p) f
      (cacheInv_updateFile st.cache p.1 p.2 hinv)
      (fun q hq => hvals q (List.mem_cons_of_mem _ hq))
      (fun q hq => hvkeys q (List.mem_cons_of_mem _ hq))
      (fun hmem => hf (List.mem_cons_of_mem _ (by simpa [mapKeys] using hmem)))]
    exact hspec.2 f hfp

theorem updFold_cache_mem (gs : List (String × List MethodInfo)) :
    ∀ st : CheckState, CacheInv st.cache → (mapKeys gs).Nodup →
      (∀ p ∈ gs, ∀ m ∈ p.2, m.filePath = p.1) →
      (∀ p ∈ gs, ((p.2).map getKey).Nodup) →
      ∀ p ∈ gs, getForFile ((gs.foldl updStep st).cache) p.1 = p.2 := by
  induction gs with
  | nil => intro st _ _ _ _ p hp; simp at hp
  | cons q t ih =>
    intro st hinv hnd hvals hvkeys p hp
    rw [List.foldl_cons]
    have hinv' : CacheInv ((updStep st q).cache) :=
      cacheInv_updateFile st.cache q.1 q.2 hinv
    have hspec := updateFile_spec st.cache q.1 q.2 hinv
      (hvals q (List.mem_cons_self _ _)) (hvkeys q (List.mem_cons_self _ _))
    rw [mapKeys, List.map_cons, List.nodup_cons] at hnd
    rcases List.mem_cons.mp hp with he | hp'
    · subst he
      rw [updFold_cache_not_mem t (updStep st p) p.1 hinv'
        (fun r hr => hvals r (List.mem_cons_of_mem _ hr))
        (fun r hr => hvkeys r (List.mem_cons_of_mem _ hr))
        (by simpa [mapKeys] using hnd.1)]
      exact hspec.1
    · exact ih (updStep st q) hinv' hnd.2
        (fun r hr => hvals r (List.mem_cons_of_mem _ hr))
        (fun r hr => hvkeys r (List.mem_cons_of_mem _ hr)) p hp'

theorem updFold_diags_not_mem (gs : List (String × List MethodInfo)) :
    ∀ (st : CheckState) (f : String), f ∉ mapKeys gs →
      mapGet ((gs.foldl updStep st).diags) f = mapGet st.diags f := by
  induction gs with
  | nil => intro st f _; rfl
  | cons p t ih =>
    intro st f hf
    have hfp : f ≠ p.1 := by
      intro he
      exact hf (by rw [he]; exact List.mem_map.mpr ⟨p, List.mem_cons_self _ _, rfl⟩)
    rw [List.foldl_cons,
      ih (updStep st p) f
        (fun hmem => hf (List.mem_cons_of_mem _ (by simpa [mapKeys] using hmem)))]
    exact mapGet_set_ne st.diags p.1 f p.2 hfp

theorem updFold_diags_mem (gs : List (String × List MethodInfo)) :
    ∀ st : CheckState, (mapKeys gs).Nodup →
      ∀ p ∈ gs, mapGet ((gs.foldl updStep st).diags) p.1 = some p.2 := by
  induction gs with
  | nil => intro st _ p hp; simp at hp
  | cons q t ih =>
    intro st hnd p hp
    rw [List.foldl_cons]
    rw [mapKeys, List.map_cons, List.nodup_cons] at hnd
    rcases List.mem_cons.mp hp with he | hp'
    · subst he
      rw [updFold_diags_not_mem t (updStep st p) p.1
        (by simpa [mapKeys] using hnd.1)]
      exact mapGet_set_self st.diags p.1 p.2
    · exact ih (updStep st q) hnd.2 p hp'

theorem clearFold_keep_empty (gs : List (String × List MethodInfo))
    (L : List String) :
    ∀ (st : CheckState) (f : String), getForFile st.cache f = [] →
      mapGet st.diags f = none →
      getForFile ((L.foldl (clearStep gs) st).cache) f = [] ∧
      mapGet ((L.foldl (clearStep gs) st).diags) f = none := by
  induction L with
  | nil => intro st f h1 h2; exact ⟨h1, h2⟩
  | cons g t ih =>
    intro st f h1 h2
    rw [List.foldl_cons]
    apply ih
    · rw [clearStep]
      by_cases hg : (mapGet gs g).isSome
      · rwa [if_pos hg]
      · rw [if_neg hg]
        exact getForFile_clearFile_of_nil st.cache f g h1
    · rw [clearStep]
      by_cases hg : (mapGet gs g).isSome
      · rwa [if_pos hg]
      · rw [if_neg hg]
        by_cases hfg : f = g
        · rw [hfg]
          exact mapGet_delete_self st.diags g
        · rw [mapGet_delete_ne st.diags g f hfg]
          exact h2

theorem clearFold_clears (gs : List (String × List MethodInfo))
    (L : List String) :
    ∀ (st : CheckState) (f : String), f ∈ L → mapGet gs f = none →
      getForFile ((L.foldl (clearStep gs) st).cache) f = [] ∧
      mapGet ((L.foldl (clearStep gs) st).diags) f = none := by
  induction L with
  | nil => intro st f hf _; simp at hf
  | cons g t ih =>
    intro st f hf hnone
    rw [List.foldl_cons]
    by_cases hfg : f = g
    · subst hfg
      have hnotsome : ¬(mapGet gs f).isSome := by
        rw [hnone]
        simp
      apply clearFold_keep_empty gs t
      · rw [clearStep, if_neg hnotsome]
        exact getForFile_clearFile_self st.cache f
      · rw [clearStep, if_neg hnotsome]
        exact mapGet_delete_self st.diags f
    · rcases List.mem_cons.mp hf with he | hf'
      · exact absurd he hfg
      · exact ih (clearStep gs st g) f hf' hnone

theorem clearFold_inv (gs : List (String × List MethodInfo))
    (L : List String) :
    ∀ st : CheckState, CacheInv st.cache →
      CacheInv ((L.foldl (clearStep gs) st).cache) := by
  induction L with
  | nil => intro st h; simpa using h
  | cons g t ih =>
    intro st h
    rw [List.foldl_cons]
    apply ih
    rw [clearStep]
    by_cases hg : (mapGet gs g).isSome
    · rwa [if_pos hg]
    · rw [if_neg hg]
      exact cacheInv_clearFile st.cache g h

theorem clearFold_group_keep (gs : List (String × List MethodInfo))
    (L : List String) :
    ∀ (st : CheckState) (f : String), CacheInv st.cache →
      (mapGet gs f).isSome →
      getForFile ((L.foldl (clearStep gs) st).cache) f =
        getForFile st.cache f ∧
      mapGet ((L.foldl (clearStep gs) st).diags) f = mapGet st.diags f := by
  induction L with
  | nil => intro st f _ _; exact ⟨rfl, rfl⟩
  | cons g t ih =>
    intro st f hinv hsome
    rw [List.foldl_cons]
    by_cases hg : (mapGet gs g).isSome
    · have hstep : clearStep gs st g = st := by rw [clearStep, if_pos hg]
      rw [hstep]
      exact ih st f hinv hsome
    · have hfg : f ≠ g := by
        intro he
        rw [he] at hsome
        exact hg hsome
      have hstep : clearStep gs st g =
          CheckState.mk (clearFile st.cache g) (mapDelete st.diags g) := by
        rw [clearStep, if_neg hg]
      rw [hstep]
      have hrec := ih (CheckState.mk (clearFile st.cache g) (mapDelete st.diags g))
        f (cacheInv_clearFile st.cache g hinv) hsome
      rw [hrec.1, hrec.2]
      constructor
      · exact getForFile_clearFile_ne st.cache f g hinv hfg
      · exact mapGet_delete_ne st.diags g f hfg

theorem checkReferences_eq (lookupUnused : MethodInfo → Except Unit Bool)
    (files : List String) (extractedMethods : List MethodInfo)
    (st : CheckState)
    (h : methodsToCheck st.cache files extractedMethods ≠ []) :
    checkReferences lookupUnused files extractedMethods st =
      (((methodsToCheck st.cache files extractedMethods).map
          (fun m => m.filePath)).foldl setAdd [] |>.foldl
        (clearStep (groupByFile
          ((methodsToCheck st.cache files extractedMethods).filter
            (methodVerdict lookupUnused))))
        ((groupByFile
          ((methodsToCheck st.cache files extractedMethods).filter
            (methodVerdict lookupUnused))).foldl updStep st),
       (methodsToCheck st.cache files extractedMethods).filter
         (lookupFailed lookupUnused)) := by
  rw [checkReferences]
  have hne : (methodsToCheck st.cache files extractedMethods).isEmpty = false := by
    rw [List.isEmpty_eq_false]
    exact h
  rw [hne]
  simp

end CheckReferencesFoldLemmas

section ClaimsCheckReferences

open CacheService AnalysisExecutor

/-- C2: a per-symbol reference-lookup failure (a thrown error or the
per-method timeout, both `.error` here) is treated as used: afterwards the
symbol is not in the unused cache and not among its file's reported
diagnostics, it is returned in the warned-about failure list, and every
other symbol of the batch is still processed — every symbol whose lookup
succeeded with "unused" ends up cached.  Stated over well-formed caches
(`CacheInv`) and batches without duplicate `(file, line)` keys, both of
which the analyzer maintains. -/
theorem claim_C2_lookup_failure_fail_safe
    (lookupUnused : MethodInfo → Except Unit Bool) (files : List String)
    (extractedMethods : List MethodInfo) (st : CheckState) (m : MethodInfo)
    (hinv : CacheInv st.cache)
    (hnd : ((methodsToCheck st.cache files extractedMethods).map
        (fun m => (m.filePath, m.startLine))).Nodup)
    (hm : m ∈ methodsToCheck st.cache files extractedMethods)
    (herr : lookupUnused m = .error ()) :
    (m ∉ getAll
      (checkReferences lookupUnused files extractedMethods st).1.cache) ∧
    (∀ ms, mapGet (checkReferences lookupUnused files
        extractedMethods st).1.diags m.filePath = some ms → m ∉ ms) ∧
    (m ∈ (checkReferences lookupUnused files extractedMethods st).2) ∧
    (∀ m', m' ∈ methodsToCheck st.cache files extractedMethods →
      lookupUnused m' = .ok true →
      m' ∈ getAll
        (checkReferences lookupUnused files extractedMethods st).1.cache) := by
  have hne : methodsToCheck st.cache files extractedMethods ≠ [] := by
    intro h0
    rw [h0] at hm
    simp at hm
  rw [checkReferences_eq lookupUnused files extractedMethods st hne]
  dsimp only
  set methods := methodsToCheck st.cache files extractedMethods with hMeth
  set fu := methods.filter (methodVerdict lookupUnused) with hFU
  set gs := groupByFile fu with hGS
  set ftc := (methods.map (fun m => m.filePath)).foldl setAdd [] with hFTC
  set stU := gs.foldl updStep st with hStU
  have hmkeys : (methods.map getKey).Nodup := nodup_keys_of_nodup_pairs methods hnd
  have hgsnd : (mapKeys gs).Nodup := hGS ▸ nodup_keys_groupByFile fu
  have hchar : ∀ p ∈ gs,
      p.2 = fu.filter (fun x => x.filePath == p.1) := by
    intro p hp
    have hget := mapGet_of_mem_of_nodupKeys gs p.1 p.2 hgsnd hp
    rw [hGS, groupByFile_get] at hget
    split at hget
    · cases hget
    · exact (Option.some.inj hget).symm
  have hvals : ∀ p ∈ gs, ∀ m' ∈ p.2, m'.filePath = p.1 := by
    intro p hp m' hm'
    rw [hchar p hp] at hm'
    simpa using (List.mem_filter.mp hm').2
  have hvkeys : ∀ p ∈ gs, ((p.2).map getKey).Nodup := by
    intro p hp
    have hsub : List.Sublist p.2 methods := by
      rw [hchar p hp, hFU]
      exact (List.filter_sublist _).trans (List.filter_sublist _)
    exact List.Nodup.sublist (hsub.map getKey) hmkeys
  have hinvU : CacheInv stU.cache := updFold_inv gs st hinv
  refine ⟨?_, ?_, ?_, ?_⟩
  · by_cases hsome : (mapGet gs m.filePath).isSome
    · obtain ⟨gms, hget⟩ := Option.isSome_iff_exists.mp hsome
      have hpmem : (m.filePath, gms) ∈ gs := mapGet_eq_some_mem gs m.filePath gms hget
      have hupd := updFold_cache_mem gs st hinv hgsnd hvals hvkeys
        (m.filePath, gms) hpmem
      have hkeep := clearFold_group_keep gs ftc stU m.filePath hinvU
        (by rw [hget]; rfl)
      intro hcontra
      have hmemf : m ∈ getForFile (ftc.foldl (clearStep gs) stU).cache m.filePath :=
        (mem_getForFile_self _ m).mpr hcontra
      rw [hkeep.1] at hmemf
      rw [show getForFile stU.cache m.filePath = gms from hupd] at hmemf
      have hmfu : m ∈ fu := by
        have := hchar (m.filePath, gms) hpmem
        simp only at this
        rw [this] at hmemf
        exact (List.mem_filter.mp hmemf).1
      rw [hFU] at hmfu
      have hver := (List.mem_filter.mp hmfu).2
      rw [methodVerdict, herr] at hver
      exact Bool.false_ne_true hver
    · have hnone : mapGet gs m.filePath = none :=
        Option.not_isSome_iff_eq_none.mp hsome
      have hmemftc : m.filePath ∈ ftc := by
        rw [hFTC, mem_foldl_setAdd]
        exact Or.inr (List.mem_map.mpr ⟨m, hm, rfl⟩)
      have hclr := clearFold_clears gs ftc stU m.filePath hmemftc hnone
      intro hcontra
      have hmemf : m ∈ getForFile (ftc.foldl (clearStep gs) stU).cache m.filePath :=
        (mem_getForFile_self _ m).mpr hcontra
      rw [hclr.1] at hmemf
      simp at hmemf
  · by_cases hsome : (mapGet gs m.filePath).isSome
    · obtain ⟨gms, hget⟩ := Option.isSome_iff_exists.mp hsome
      have hpmem : (m.filePath, gms) ∈ gs := mapGet_eq_some_mem gs m.filePath gms hget
      have hdiagU := updFold_diags_mem gs st hgsnd (m.filePath, gms) hpmem
      have hkeep := clearFold_group_keep gs ftc stU m.filePath hinvU
        (by rw [hget]; rfl)
      intro ms hms hmem
      rw [hkeep.2] at hms
      rw [show mapGet stU.diags m.filePath = some gms from hdiagU] at hms
      have hmsgms : ms = gms := (Option.some.inj hms).symm
      rw [hmsgms] at hmem
      have := hchar (m.filePath, gms) hpmem
      simp only at this
      rw [this] at hmem
      have hmfu := (List.mem_filter.mp hmem).1
      rw [hFU] at hmfu
      have hver := (List.mem_filter.mp hmfu).2
      rw [methodVerdict, herr] at hver
      exact Bool.false_ne_true hver
    · have hnone : mapGet gs m.filePath = none :=
        Option.not_isSome_iff_eq_none.mp hsome
      have hmemftc : m.filePath ∈ ftc := by
        rw [hFTC, mem_foldl_setAdd]
        exact Or.inr (List.mem_map.mpr ⟨m, hm, rfl⟩)
      have hclr := clearFold_clears gs ftc stU m.filePath hmemftc hnone
      intro ms hms
      rw [hclr.2] at hms
      cases hms
  · apply List.mem_filter.mpr
    refine ⟨hm, ?_⟩
    rw [lookupFailed, herr]
  · intro m' hm' hok
    have hver' : methodVerdict lookupUnused m' = true := by
      rw [methodVerdict, hok]
    have hmfu : m' ∈ fu := by
      rw [hFU]
      exact List.mem_filter.mpr ⟨hm', hver'⟩
    have hfil_ne : fu.filter (fun x => x.filePath == m'.filePath) ≠ [] := by
      intro h0
      have hx : m' ∈ fu.filter (fun x => x.filePath == m'.filePath) :=
        List.mem_filter.mpr ⟨hmfu, by simp⟩
      rw [h0] at hx
      simp at hx
    have hget : mapGet gs m'.filePath =
        some (fu.filter (fun x => x.filePath == m'.filePath)) := by
      rw [hGS, groupByFile_get, if_neg hfil_ne]
    have hpmem := mapGet_eq_some_mem gs m'.filePath _ hget
    have hupd := updFold_cache_mem gs st hinv hgsnd hvals hvkeys _ hpmem
    have hkeep := clearFold_group_keep gs ftc stU m'.filePath hinvU
      (by rw [hget]; rfl)
    apply mem_getAll_of_mem_getForFile _ m'.filePath
    rw [hkeep.1]
    simp only at hupd
    rw [hupd]
    exact List.mem_filter.mpr ⟨hmfu, by simp⟩

/-- C2 witness: in a batch of two symbols where the first lookup fails and
the second reports unused, the failing symbol is not cached, is listed
among the warned failures, and the succeeding symbol is still cached. -/
theorem claim_C2_witness :
    (MethodInfo.mk "bad" "a" 1 false none ∉ getAll
      (checkReferences
        (fun m => if m = MethodInfo.mk "bad" "a" 1 false none then
          Except.error () else Except.ok true)
        [] [MethodInfo.mk "bad" "a" 1 false none,
          MethodInfo.mk "good" "b" 2 false none]
        (CheckState.mk [] [])).1.cache) ∧
    (MethodInfo.mk "bad" "a" 1 false none ∈
      (checkReferences
        (fun m => if m = MethodInfo.mk "bad" "a" 1 false none then
          Except.error () else Except.ok true)
        [] [MethodInfo.mk "bad" "a" 1 false none,
          MethodInfo.mk "good" "b" 2 false none]
        (CheckState.mk [] [])).2) ∧
    (MethodInfo.mk "good" "b" 2 false none ∈ getAll
      (checkReferences
        (fun m => if m = MethodInfo.mk "bad" "a" 1 false none then
          Except.error () else Except.ok true)
        [] [MethodInfo.mk "bad" "a" 1 false none,
          MethodInfo.mk "good" "b" 2 false none]
        (CheckState.mk [] [])).1.cache) := by
  obtain ⟨h1, _, h3, h4⟩ := claim_C2_lookup_failure_fail_safe
    (fun m => if m = MethodInfo.mk "bad" "a" 1 false none then
      Except.error () else Except.ok true)
    [] [MethodInfo.mk "bad" "a" 1 false none,
      MethodInfo.mk "good" "b" 2 false none]
    (CheckState.mk [] []) (MethodInfo.mk "bad" "a" 1 false none)
    cacheInv_nil (by decide) (by decide) (by rfl)
  exact ⟨h1, h3, h4 (MethodInfo.mk "good" "b" 2 false none) (by decide) (by rfl)⟩

/-- C8 counterexample: the cleanup loop of `check_references` iterates over
the files of the *checked methods*, not over the operation's resolved
scope.  Here the scope is `[a, b]` and freshly extracted methods cover only
`a`; file `b` is in scope and produced no unused symbols, yet its stale
cache entry survives. -/
theorem claim_C8_counterexample :
    "b" ∈ ["a", "b"] ∧
    (∀ m' ∈ methodsToCheck
        [(getKey (MethodInfo.mk "sb" "b" 1 false none),
          MethodInfo.mk "sb" "b" 1 false none)] ["a", "b"]
        [MethodInfo.mk "ma" "a" 2 false none],
      m'.filePath ≠ "b") ∧
    getForFile (checkReferences (fun _ => Except.ok false) ["a", "b"]
        [MethodInfo.mk "ma" "a" 2 false none]
        (CheckState.mk
          [(getKey (MethodInfo.mk "sb" "b" 1 false none),
            MethodInfo.mk "sb" "b" 1 false none)] [])).1.cache "b" =
      [MethodInfo.mk "sb" "b" 1 false none] := by
  refine ⟨by decide, by decide, by decide⟩

/-- C8 (amended): after `check_references`, every file that owned at least
one *checked* symbol but whose checked symbols were all found used has its
unused-symbol cache entries and diagnostics cleared.  (For the operation's
resolved scope as a whole the claim fails: in-scope files contributing no
checked symbol — e.g. a file whose fresh extraction returned no methods —
keep their stale entries, as the counterexample shows.) -/
theorem claim_C8_stale_cleanup (lookupUnused : MethodInfo → Except Unit Bool)
    (files : List String) (extractedMethods : List MethodInfo)
    (st : CheckState) (f : String)
    (hf : f ∈ (methodsToCheck st.cache files extractedMethods).map
      (fun m => m.filePath))
    (hnone : ∀ m' ∈ methodsToCheck st.cache files extractedMethods,
      m'.filePath = f → methodVerdict lookupUnused m' = false) :
    getForFile
      (checkReferences lookupUnused files extractedMethods st).1.cache f = [] ∧
    mapGet
      (checkReferences lookupUnused files extractedMethods st).1.diags f =
      none := by
  have hne : methodsToCheck st.cache files extractedMethods ≠ [] := by
    intro h0
    rw [h0] at hf
    simp at hf
  rw [checkReferences_eq lookupUnused files extractedMethods st hne]
  dsimp only
  have hfilter : ((methodsToCheck st.cache files extractedMethods).filter
      (methodVerdict lookupUnused)).filter (fun x => x.filePath == f) = [] := by
    rw [List.filter_eq_nil_iff]
    intro x hx hxf
    have hx1 := (List.mem_filter.mp hx).1
    have hx2 := (List.mem_filter.mp hx).2
    rw [hnone x hx1 (by simpa using hxf)] at hx2
    exact Bool.false_ne_true hx2
  have hnone' : mapGet (groupByFile
      ((methodsToCheck st.cache files extractedMethods).filter
        (methodVerdict lookupUnused))) f = none := by
    rw [groupByFile_get, if_pos hfilter]
  have hmem : f ∈ ((methodsToCheck st.cache files extractedMethods).map
      (fun m => m.filePath)).foldl setAdd [] := by
    rw [mem_foldl_setAdd]
    exact Or.inr hf
  exact clearFold_clears _ _ _ f hmem hnone'

/-- C8 witness: the amended statement applied to a file whose single cached
symbol is re-checked and found used — its cache entry and diagnostics are
cleared. -/
theorem claim_C8_stale_cleanup_witness :
    getForFile (checkReferences (fun _ => Except.ok false) ["a"] []
      (CheckState.mk
        [(getKey (MethodInfo.mk "sa" "a" 1 false none),
          MethodInfo.mk "sa" "a" 1 false none)]
        [("a", [MethodInfo.mk "sa" "a" 1 false none])])).1.cache "a" = [] ∧
    mapGet (checkReferences (fun _ => Except.ok false) ["a"] []
      (CheckState.mk
        [(getKey (MethodInfo.mk "sa" "a" 1 false none),
          MethodInfo.mk "sa" "a" 1 false none)]
        [("a", [MethodInfo.mk "sa" "a" 1 false none])])).1.diags "a" = none :=
  claim_C8_stale_cleanup (fun _ => Except.ok false) ["a"] []
    (CheckState.mk
      [(getKey (MethodInfo.mk "sa" "a" 1 false none),
        MethodInfo.mk "sa" "a" 1 false none)]
      [("a", [MethodInfo.mk "sa" "a" 1 false none])]) "a"
    (by decide) (by decide)

end ClaimsCheckReferences

end DartUnusedCode

